import Mathlib

/-!
Verification development for the `core` package of the stones roguelike
library: the precomputed field-of-view (FoV), line-of-sight (LoS) and
line-tracing (Trace) machinery.

The Go source is shallowly embedded as follows.

* `Offset` is the integer 2-vector of the source, with `Sub`, `Add` and the
  `Chebyshev` metric translated verbatim.
* The directional table of `computeTable` is represented as a list of edges
  `(src, dst)`.  The Go code stores it as `map[Offset]map[Offset]struct{}`
  (a set of edges); `addEntry`'s deduplication and the map's unspecified
  iteration order only affect the multiplicity and order in which edges are
  enumerated, never which edges exist, and every fact proved below is stated
  through membership or through key/value lookups, which agree with the Go
  set semantics.
* `completeTable` iterates over a Go map while inserting into it.  Entries
  added during iteration may or may not be visited, but a visited mirrored
  entry only ever re-adds edges that are already present (each reflection is
  an involution), so the resulting edge set is the order-independent union
  of the octant with its reflections; the embedding builds exactly that
  union.
* Tiles are pointers in Go; they are embedded as `Nat` identifiers in an
  ambient `TileGraph` giving each tile its transparency flag (`Lite`), its
  adjacency map (`Adjacent`, with `none` standing for a missing entry or a
  nil pointer) and its `Offset` field.  The `Tile` struct itself belongs to
  a part of the repository that is not in scope, but every field used here
  (`Lite`, `Adjacent`, `Offset`) appears in the FoV/LoS source, so the
  graph structure is dictated by the code.
* A Go `nil` pointer dereference (panic) is modelled as an explicit
  `panicked` outcome.  Loops are run on an explicit fuel that dominates
  every actual run; exhausting it is a separate `fuelOut` outcome so that a
  panic is never confused with the modelling artifact.
-/

/-- `Offset` stores a 2-dimensional int vector (source `Offset`). -/
structure Offset where
  X : Int
  Y : Int
deriving DecidableEq

/-- `Sub` returns the result of subtracting another `Offset` from this one. -/
def Offset.Sub (o a : Offset) : Offset := ⟨o.X - a.X, o.Y - a.Y⟩

/-- `Add` returns the result of adding another `Offset` to this one. -/
def Offset.Add (o a : Offset) : Offset := ⟨o.X + a.X, o.Y + a.Y⟩

/-- `Chebyshev` returns the L-infinity norm of the `Offset`
(source: `Max(Abs(o.X), Abs(o.Y))`). -/
def Offset.Chebyshev (o : Offset) : Int := max |o.X| |o.Y|

/-- The origin offset `Offset{0, 0}`. -/
def Offset.zero : Offset := ⟨0, 0⟩

theorem Offset.chebyshev_nonneg (o : Offset) : 0 ≤ o.Chebyshev := by
  unfold Offset.Chebyshev
  have := abs_nonneg o.X
  exact le_trans this (le_max_left _ _)

theorem Offset.chebyshev_zero_iff (o : Offset) : o.Chebyshev = 0 ↔ o = Offset.zero := by
  unfold Offset.Chebyshev Offset.zero
  constructor
  · intro h
    have hx : |o.X| ≤ 0 := le_trans (le_max_left _ _) h.le
    have hy : |o.Y| ≤ 0 := le_trans (le_max_right _ _) h.le
    have hx' : o.X = 0 := abs_nonpos_iff.mp hx
    have hy' : o.Y = 0 := abs_nonpos_iff.mp hy
    cases o
    simp_all
  · intro h
    subst h
    simp

/-- A directed edge of the directional table: `(source, destination)`. -/
abbrev Edge := Offset × Offset

/-! ### The octant builder (source `computeTable`, lines 54-95)

The inner loop (`for y := 0; y <= x; y++`) is `innerRows` with one unit of
fuel per row; the outer loop (`for x := 1; x < radius; x++`) is
`outerRings` with one unit of fuel per ring, threading the
`currBreak`/`breakCount` state exactly as the source does after each ring.
`addEntry` only appends an edge (the octant never produces duplicates, and
in any case all downstream reasoning is membership-based). -/

/-- Rows `y, y+1, ...` of ring `x` of the octant table, with `k` rows left to
emit and the running column counter `nextY` (source lines 71-82). -/
def innerRows (x currBreak : Int) : Nat → Int → Int → List Edge
  | 0, _, _ => []
  | k+1, y, nextY =>
    if y = currBreak then
      (⟨x, y⟩, ⟨x + 1, nextY⟩) :: (⟨x, y⟩, ⟨x + 1, nextY + 1⟩) ::
        innerRows x currBreak k (y + 1) (nextY + 2)
    else
      (⟨x, y⟩, ⟨x + 1, nextY⟩) :: innerRows x currBreak k (y + 1) (nextY + 1)

/-- Rings `x, x+1, ...` of the octant table, with `n` rings left, threading
the `currBreak`/`breakCount` state update of source lines 83-87. -/
def outerRings : Nat → Int → Int → Int → List Edge
  | 0, _, _, _ => []
  | n+1, x, currBreak, breakCount =>
    innerRows x currBreak (x + 1).toNat 0 0 ++
      (if breakCount - 1 < 0 then
        outerRings n (x + 1) (currBreak + 1) (currBreak + 1)
      else
        outerRings n (x + 1) currBreak (breakCount - 1))

/-- The single-octant edge list of `computeTable` before `completeTable`:
the two seed edges of source lines 58-59 followed by the ring loop. -/
def octantEdges (radius : Int) : List Edge :=
  (⟨0, 0⟩, ⟨1, 0⟩) :: (⟨0, 0⟩, ⟨1, 1⟩) :: outerRings (radius - 1).toNat 1 0 0

/-- Applies an offset transformation to both endpoints of every edge. -/
def mirrorEdges (f : Offset → Offset) (es : List Edge) : List Edge :=
  es.map fun e => (f e.1, f e.2)

/-- `completeTable` (source lines 110-128): first the diagonal mirror of
every entry is added, then the three axis/point reflections of the
resulting two octants.  As discussed in the header, the Go map iteration
produces exactly this union of images. -/
def completeTable (t : List Edge) : List Edge :=
  let s := t ++ mirrorEdges (fun o => ⟨o.Y, o.X⟩) t
  s ++ mirrorEdges (fun o => ⟨-o.X, o.Y⟩) s ++
    mirrorEdges (fun o => ⟨o.X, -o.Y⟩) s ++
    mirrorEdges (fun o => ⟨-o.X, -o.Y⟩) s

/-- `computeTable` (source lines 54-95), as the edge list of the resulting
`map[Offset]map[Offset]struct{}`. -/
def computeTable (radius : Int) : List Edge :=
  completeTable (octantEdges radius)

/-- The destination set `table[off]` used by the FoV flood (source line 33),
in the deterministic order induced by the edge list. -/
def dsts (t : List Edge) (o : Offset) : List Offset :=
  (t.filter fun e => decide (e.1 = o)).map Prod.snd

/-! ### Closed form of the octant builder

`stAt n` is the `(currBreak, breakCount)` pair entering ring `x = 1 + n`;
`rowE x cb j` is the set of edges row `j` of ring `x` contributes when the
break row is `cb`.  `octant_eq_closed` below proves the loop equal to the
closed form, and all structural facts are derived from the closed form. -/

/-- `(currBreak, breakCount)` state entering ring `1 + n`. -/
def stAt : Nat → Int × Int
  | 0 => (0, 0)
  | n+1 =>
    let p := stAt n
    if p.2 - 1 < 0 then (p.1 + 1, p.1 + 1) else (p.1, p.2 - 1)

/-- The break row in effect for ring `1 + n`. -/
def cbA (n : Nat) : Int := (stAt n).1

theorem cbA_nonneg (n : Nat) : 0 ≤ cbA n := by
  induction n with
  | zero => simp [cbA, stAt]
  | succ n ih =>
    unfold cbA stAt
    dsimp only
    split
    · dsimp [cbA] at ih; omega
    · exact ih

theorem cbA_le (n : Nat) : cbA n ≤ n := by
  induction n with
  | zero => simp [cbA, stAt]
  | succ n ih =>
    unfold cbA stAt
    dsimp only
    split
    · dsimp [cbA] at ih; omega
    · dsimp [cbA] at ih ⊢; omega

/-- Concatenation of `f 0 ++ f 1 ++ ... ++ f (n-1)`; a head-recursive
stand-in for `List.range n |>.bind f` that matches the loop recursions. -/
def seqList {α : Type} : Nat → (Nat → List α) → List α
  | 0, _ => []
  | n+1, f => f 0 ++ seqList n fun i => f (i + 1)

theorem seqList_succ {α : Type} (n : Nat) (f : Nat → List α) :
    seqList (n + 1) f = f 0 ++ seqList n fun i => f (i + 1) := rfl

theorem seqList_congr {α : Type} {f g : Nat → List α} :
    ∀ (n : Nat), (∀ i, i < n → f i = g i) → seqList n f = seqList n g := by
  intro n
  induction n generalizing f g with
  | zero => intro _; rfl
  | succ n ih =>
    intro h
    unfold seqList
    rw [h 0 (Nat.succ_pos n), ih fun i hi => h (i + 1) (by omega)]

theorem mem_seqList {α : Type} {a : α} {f : Nat → List α} :
    ∀ {n : Nat}, a ∈ seqList n f ↔ ∃ i, i < n ∧ a ∈ f i := by
  intro n
  induction n generalizing f with
  | zero => simp [seqList]
  | succ n ih =>
    unfold seqList
    rw [List.mem_append, ih]
    constructor
    · rintro (h | ⟨i, hi, hm⟩)
      · exact ⟨0, Nat.succ_pos n, h⟩
      · exact ⟨i + 1, by omega, hm⟩
    · rintro ⟨i, hi, hm⟩
      cases i with
      | zero => exact Or.inl hm
      | succ i => exact Or.inr ⟨i, by omega, hm⟩

/-- Closed form of one row of the octant recurrence. -/
def rowE (x cb j : Int) : List Edge :=
  if j < cb then [(⟨x, j⟩, ⟨x + 1, j⟩)]
  else if j = cb then [(⟨x, j⟩, ⟨x + 1, j⟩), (⟨x, j⟩, ⟨x + 1, j + 1⟩)]
  else [(⟨x, j⟩, ⟨x + 1, j + 1⟩)]

/-- Closed form of one ring of the octant. -/
def ringE (x cb : Int) : List Edge :=
  seqList (x + 1).toNat fun j => rowE x cb (j : Int)

theorem innerRows_eq_closed (x cb : Int) (hcb : 0 ≤ cb) :
    ∀ (k : Nat) (y nY : Int), 0 ≤ y →
      nY = y + (if cb < y then 1 else 0) →
      innerRows x cb k y nY = seqList k fun i => rowE x cb (y + i) := by
  intro k
  induction k with
  | zero => intro y nY _ _; simp [innerRows, seqList]
  | succ k ih =>
    intro y nY hy hnY
    have hstep : (seqList (k + 1) fun i => rowE x cb (y + i)) =
        rowE x cb y ++ seqList k fun i => rowE x cb (y + 1 + i) := by
      rw [seqList_succ]
      congr 1
      · norm_num
      · apply seqList_congr
        intro i _
        congr 1
        push_cast
        ring
    rcases lt_trichotomy y cb with hlt | heq | hgt
    · have hnotbreak : ¬ y = cb := by omega
      have hnY' : nY = y := by rw [hnY, if_neg (by omega)]; ring
      rw [innerRows, if_neg hnotbreak, hnY', hstep]
      rw [ih (y + 1) (y + 1) (by omega) (by rw [if_neg (by omega)]; ring)]
      rw [rowE, if_pos hlt]
      rfl
    · have hnY' : nY = y := by rw [hnY, if_neg (by omega)]; ring
      rw [innerRows, if_pos heq, hnY', hstep]
      rw [ih (y + 1) (y + 2) (by omega) (by rw [if_pos (by omega)]; ring)]
      rw [rowE, if_neg (by omega), if_pos heq]
      rfl
    · have hnotbreak : ¬ y = cb := by omega
      have hnY' : nY = y + 1 := by rw [hnY, if_pos hgt]
      rw [innerRows, if_neg hnotbreak, hnY', hstep]
      rw [ih (y + 1) (y + 1 + 1) (by omega) (by rw [if_pos (by omega)])]
      rw [rowE, if_neg (by omega), if_neg hnotbreak]
      rfl

theorem outerRings_eq_closed :
    ∀ (fuel n : Nat),
      outerRings fuel (1 + (n : Int)) (stAt n).1 (stAt n).2 =
        seqList fuel fun i => ringE (1 + (n + i : Nat)) (cbA (n + i)) := by
  intro fuel
  induction fuel with
  | zero => intro n; simp [outerRings, seqList]
  | succ fuel ih =>
    intro n
    have hcb := cbA_nonneg n
    simp only [cbA] at hcb
    rw [outerRings, seqList_succ]
    congr 1
    · simp only [Nat.add_zero]
      rw [innerRows_eq_closed (1 + (n : Int)) (stAt n).1 hcb
        ((1 + (n : Int)) + 1).toNat 0 0 le_rfl
        (by rw [if_neg (by omega)]; ring)]
      unfold ringE
      apply seqList_congr
      intro i _
      rw [zero_add]
      simp only [cbA]
    · have hs1p : (stAt (n + 1)).1 =
          if (stAt n).2 - 1 < 0 then (stAt n).1 + 1 else (stAt n).1 := by
        show (if (stAt n).2 - 1 < 0 then ((stAt n).1 + 1, (stAt n).1 + 1)
            else ((stAt n).1, (stAt n).2 - 1)).1 = _
        split <;> rfl
      have hs2p : (stAt (n + 1)).2 =
          if (stAt n).2 - 1 < 0 then (stAt n).1 + 1 else (stAt n).2 - 1 := by
        show (if (stAt n).2 - 1 < 0 then ((stAt n).1 + 1, (stAt n).1 + 1)
            else ((stAt n).1, (stAt n).2 - 1)).2 = _
        split <;> rfl
      have key := ih (n + 1)
      rw [hs1p, hs2p] at key
      have harg : (1 : Int) + ((n + 1 : Nat) : Int) = 1 + (n : Int) + 1 := by
        push_cast; ring
      rw [harg] at key
      have hseq : (seqList fuel fun i => ringE (1 + ((n + 1 + i : Nat) : Int)) (cbA (n + 1 + i))) =
          seqList fuel fun i => ringE (1 + ((n + (i + 1) : Nat) : Int)) (cbA (n + (i + 1))) := by
        apply seqList_congr
        intro i _
        have h1 : n + 1 + i = n + (i + 1) := by omega
        rw [h1]
      rw [hseq] at key
      by_cases hc : (stAt n).2 - 1 < 0
      · rw [if_pos hc]
        rw [if_pos hc, if_pos hc] at key
        exact key
      · rw [if_neg hc]
        rw [if_neg hc, if_neg hc] at key
        exact key

/-- The octant edge list equals its closed form. -/
theorem octant_eq_closed (radius : Int) :
    octantEdges radius =
      (⟨0, 0⟩, ⟨1, 0⟩) :: (⟨0, 0⟩, ⟨1, 1⟩) ::
        (seqList (radius - 1).toNat fun n => ringE (1 + (n : Int)) (cbA n)) := by
  unfold octantEdges
  congr 2
  have h0 := outerRings_eq_closed (radius - 1).toNat 0
  simp only [stAt, Nat.cast_zero, add_zero, Nat.zero_add] at h0
  exact h0

/-- Membership in the octant edge list, in closed form. -/
theorem mem_octant {radius : Int} {e : Edge} :
    e ∈ octantEdges radius ↔
      e = (⟨0, 0⟩, ⟨1, 0⟩) ∨ e = (⟨0, 0⟩, ⟨1, 1⟩) ∨
        ∃ n : Nat, n < (radius - 1).toNat ∧
          ∃ j : Nat, j < (1 + (n : Int) + 1).toNat ∧
            e ∈ rowE (1 + (n : Int)) (cbA n) (j : Int) := by
  rw [octant_eq_closed]
  simp only [List.mem_cons, mem_seqList]
  constructor
  · rintro (h | h | ⟨n, hn, hm⟩)
    · exact Or.inl h
    · exact Or.inr (Or.inl h)
    · rw [ringE, mem_seqList] at hm
      obtain ⟨j, hj, hmem⟩ := hm
      exact Or.inr (Or.inr ⟨n, hn, j, hj, hmem⟩)
  · rintro (h | h | ⟨n, hn, j, hj, hmem⟩)
    · exact Or.inl h
    · exact Or.inr (Or.inl h)
    · refine Or.inr (Or.inr ⟨n, hn, ?_⟩)
      rw [ringE, mem_seqList]
      exact ⟨j, hj, hmem⟩

/-- Membership in a closed-form row. -/
theorem mem_rowE {x cb j : Int} {e : Edge} :
    e ∈ rowE x cb j ↔
      (j < cb ∧ e = (⟨x, j⟩, ⟨x + 1, j⟩)) ∨
      (j = cb ∧ (e = (⟨x, j⟩, ⟨x + 1, j⟩) ∨ e = (⟨x, j⟩, ⟨x + 1, j + 1⟩))) ∨
      (cb < j ∧ e = (⟨x, j⟩, ⟨x + 1, j + 1⟩)) := by
  unfold rowE
  rcases lt_trichotomy j cb with hlt | heq | hgt
  · rw [if_pos hlt]
    simp only [List.mem_singleton]
    constructor
    · intro h; exact Or.inl ⟨hlt, h⟩
    · rintro (⟨_, h⟩ | ⟨h, _⟩ | ⟨h, _⟩) <;> first | exact h | omega
  · rw [if_neg (by omega), if_pos heq]
    simp only [List.mem_cons, List.mem_singleton, List.not_mem_nil, or_false]
    constructor
    · intro h; exact Or.inr (Or.inl ⟨heq, h⟩)
    · rintro (⟨h, _⟩ | ⟨_, h⟩ | ⟨h, _⟩) <;> first | exact h | omega
  · rw [if_neg (by omega), if_neg (by omega)]
    simp only [List.mem_singleton]
    constructor
    · intro h; exact Or.inr (Or.inr ⟨hgt, h⟩)
    · rintro (⟨h, _⟩ | ⟨h, _⟩ | ⟨_, h⟩) <;> first | exact h | omega

/-- Membership in the octant, with ring/row indices as integers. -/
theorem mem_octant_int {radius : Int} {e : Edge} :
    e ∈ octantEdges radius ↔
      e = (⟨0, 0⟩, ⟨1, 0⟩) ∨ e = (⟨0, 0⟩, ⟨1, 1⟩) ∨
        ∃ n : Nat, (n : Int) < radius - 1 ∧
          ∃ j : Nat, (j : Int) ≤ 1 + (n : Int) ∧
            e ∈ rowE (1 + (n : Int)) (cbA n) (j : Int) := by
  rw [mem_octant]
  constructor
  · rintro (h | h | ⟨n, hn, j, hj, hm⟩)
    · exact Or.inl h
    · exact Or.inr (Or.inl h)
    · exact Or.inr (Or.inr ⟨n, by omega, j, by omega, hm⟩)
  · rintro (h | h | ⟨n, hn, j, hj, hm⟩)
    · exact Or.inl h
    · exact Or.inr (Or.inl h)
    · exact Or.inr (Or.inr ⟨n, by omega, j, by omega, hm⟩)

/-- Structural bounds of an octant edge: the source lies in the half-octant
region `0 ≤ Y ≤ X`, the destination is one ring out, its column stays in
`0 ≤ Y ≤ X`, and the source ring is bounded by `radius - 1` (except the
seeded origin). -/
theorem oct_shape {radius : Int} {e : Edge} (h : e ∈ octantEdges radius) :
    0 ≤ e.1.Y ∧ e.1.Y ≤ e.1.X ∧ e.2.X = e.1.X + 1 ∧ 0 ≤ e.2.Y ∧
      e.2.Y ≤ e.2.X ∧ 0 ≤ e.1.X ∧ (e.1.X = 0 ∨ e.1.X ≤ radius - 1) := by
  rw [mem_octant_int] at h
  rcases h with h | h | ⟨n, hn, j, hj, hm⟩
  · subst h; norm_num
  · subst h; norm_num
  · have hcb0 := cbA_nonneg n
    have hcble := cbA_le n
    rw [mem_rowE] at hm
    rcases hm with ⟨hc, he⟩ | ⟨hc, he | he⟩ | ⟨hc, he⟩ <;> subst he <;>
      constructor <;> simp_all <;> omega

/-- Elimination form of row membership. -/
theorem mem_rowE_elim {x cb j : Int} {e : Edge} (h : e ∈ rowE x cb j) :
    e.1 = ⟨x, j⟩ ∧ e.2.X = x + 1 ∧
      ((e.2.Y = j ∧ j ≤ cb) ∨ (e.2.Y = j + 1 ∧ cb ≤ j)) := by
  rw [mem_rowE] at h
  rcases h with ⟨hc, he⟩ | ⟨hc, he | he⟩ | ⟨hc, he⟩ <;> subst he <;>
    refine ⟨rfl, rfl, ?_⟩
  · exact Or.inl ⟨rfl, by omega⟩
  · exact Or.inl ⟨rfl, by omega⟩
  · exact Or.inr ⟨rfl, by omega⟩
  · exact Or.inr ⟨rfl, by omega⟩

/-- Two octant edges into the same destination have the same source. -/
theorem oct_dst_unique {radius : Int} {e e' : Edge} (h : e ∈ octantEdges radius)
    (h' : e' ∈ octantEdges radius) (hd : e.2 = e'.2) : e.1 = e'.1 := by
  rw [mem_octant_int] at h h'
  have hdX : e.2.X = e'.2.X := by rw [hd]
  have hdY : e.2.Y = e'.2.Y := by rw [hd]
  rcases h with h | h | ⟨n, hn, j, hj, hm⟩ <;>
    rcases h' with h' | h' | ⟨n', hn', j', hj', hm'⟩
  · rw [show e.1 = (⟨0,0⟩ : Offset) by rw [h], show e'.1 = (⟨0,0⟩ : Offset) by rw [h']]
  · rw [show e.1 = (⟨0,0⟩ : Offset) by rw [h], show e'.1 = (⟨0,0⟩ : Offset) by rw [h']]
  · obtain ⟨hs', hx', hy'⟩ := mem_rowE_elim hm'
    have : e.2.X = 1 := by rw [h]
    omega
  · rw [show e.1 = (⟨0,0⟩ : Offset) by rw [h], show e'.1 = (⟨0,0⟩ : Offset) by rw [h']]
  · rw [show e.1 = (⟨0,0⟩ : Offset) by rw [h], show e'.1 = (⟨0,0⟩ : Offset) by rw [h']]
  · obtain ⟨hs', hx', hy'⟩ := mem_rowE_elim hm'
    have : e.2.X = 1 := by rw [h]
    omega
  · obtain ⟨hs, hx, hy⟩ := mem_rowE_elim hm
    have : e'.2.X = 1 := by rw [h']
    omega
  · obtain ⟨hs, hx, hy⟩ := mem_rowE_elim hm
    have : e'.2.X = 1 := by rw [h']
    omega
  · obtain ⟨hs, hx, hy⟩ := mem_rowE_elim hm
    obtain ⟨hs', hx', hy'⟩ := mem_rowE_elim hm'
    have hnn : (n : Int) = (n' : Int) := by omega
    have hnn' : n = n' := by omega
    subst hnn'
    have hjj : (j : Int) = (j' : Int) := by
      rcases hy with ⟨ha, hb⟩ | ⟨ha, hb⟩ <;> rcases hy' with ⟨ha', hb'⟩ | ⟨ha', hb'⟩ <;> omega
    rw [hs, hs', hjj]

/-- An octant edge whose destination is on the diagonal comes from the
diagonal cell one ring in. -/
theorem oct_dst_diag {radius : Int} {e : Edge} (h : e ∈ octantEdges radius)
    (hd : e.2.X = e.2.Y) : e.1 = ⟨e.2.X - 1, e.2.X - 1⟩ := by
  rw [mem_octant_int] at h
  rcases h with h | h | ⟨n, hn, j, hj, hm⟩
  · subst h; simp_all
  · subst h; simp_all
  · have hcb0 := cbA_nonneg n
    have hcble := cbA_le n
    rw [mem_rowE] at hm
    rcases hm with ⟨hc, he⟩ | ⟨hc, he | he⟩ | ⟨hc, he⟩ <;> subst he <;>
      simp_all <;> omega

/-- An octant edge whose destination is on the axis comes from the axis cell
one ring in. -/
theorem oct_dst_axis {radius : Int} {e : Edge} (h : e ∈ octantEdges radius)
    (hd : e.2.Y = 0) : e.1 = ⟨e.2.X - 1, 0⟩ := by
  rw [mem_octant_int] at h
  rcases h with h | h | ⟨n, hn, j, hj, hm⟩
  · subst h; simp_all
  · subst h; simp_all
  · have hcb0 := cbA_nonneg n
    rw [mem_rowE] at hm
    rcases hm with ⟨hc, he⟩ | ⟨hc, he | he⟩ | ⟨hc, he⟩ <;> subst he <;>
      simp_all <;> omega

/-- The octant tables are monotone in the radius. -/
theorem oct_mono {r1 r2 : Int} (hr : r1 ≤ r2) {e : Edge}
    (h : e ∈ octantEdges r1) : e ∈ octantEdges r2 := by
  rw [mem_octant_int] at h ⊢
  rcases h with h | h | ⟨n, hn, j, hj, hm⟩
  · exact Or.inl h
  · exact Or.inr (Or.inl h)
  · exact Or.inr (Or.inr ⟨n, by omega, j, hj, hm⟩)

/-- Octant coverage: every cell of the region `1 ≤ X ≤ radius`,
`0 ≤ Y ≤ X` is the destination of some octant edge. -/
theorem oct_coverage {radius dx dy : Int} (h1 : 1 ≤ dx) (h2 : dx ≤ radius)
    (h3 : 0 ≤ dy) (h4 : dy ≤ dx) :
    ∃ s : Offset, (s, (⟨dx, dy⟩ : Offset)) ∈ octantEdges radius := by
  rcases eq_or_lt_of_le h1 with h1' | h1'
  · refine ⟨⟨0, 0⟩, ?_⟩
    rw [mem_octant_int]
    rcases eq_or_lt_of_le h3 with h3' | h3'
    · left
      simp only [Prod.mk.injEq, Offset.mk.injEq, true_and, and_true]
      omega
    · right; left
      simp only [Prod.mk.injEq, Offset.mk.injEq, true_and, and_true]
      omega
  · have hn2 : (0 : Int) ≤ dx - 2 := by omega
    set n : Nat := (dx - 2).toNat with hn
    have hni : (n : Int) = dx - 2 := by omega
    have hcb0 := cbA_nonneg n
    have hcble := cbA_le n
    by_cases hy : dy ≤ cbA n
    · refine ⟨⟨dx - 1, dy⟩, ?_⟩
      rw [mem_octant_int]
      right; right
      refine ⟨n, by omega, dy.toNat, by omega, ?_⟩
      rw [mem_rowE]
      rcases eq_or_lt_of_le hy with hy' | hy'
      · right; left
        refine ⟨by omega, Or.inl ?_⟩
        simp only [Prod.mk.injEq, Offset.mk.injEq, true_and, and_true]
        omega
      · left
        refine ⟨by omega, ?_⟩
        simp only [Prod.mk.injEq, Offset.mk.injEq, true_and, and_true]
        omega
    · push_neg at hy
      refine ⟨⟨dx - 1, dy - 1⟩, ?_⟩
      rw [mem_octant_int]
      right; right
      refine ⟨n, by omega, (dy - 1).toNat, by omega, ?_⟩
      rw [mem_rowE]
      rcases eq_or_lt_of_le (show cbA n ≤ dy - 1 by omega) with hy' | hy'
      · right; left
        refine ⟨by omega, Or.inr ?_⟩
        simp only [Prod.mk.injEq, Offset.mk.injEq, true_and, and_true]
        omega
      · right; right
        refine ⟨by omega, ?_⟩
        simp only [Prod.mk.injEq, Offset.mk.injEq, true_and, and_true]
        omega

/-! ### The eight symmetries of the plane

`completeTable` closes the octant under the dihedral group of the square.
`Sym8` represents one of its eight elements: an optional diagonal swap
followed by optional negations of each axis. -/

/-- A plane symmetry: swap the coordinates (`s`), then negate X (`nx`)
and/or Y (`ny`). -/
structure Sym8 where
  s : Bool
  nx : Bool
  ny : Bool
deriving DecidableEq

/-- Apply a symmetry to an offset. -/
def Sym8.apply (g : Sym8) (o : Offset) : Offset :=
  let p : Offset := if g.s then ⟨o.Y, o.X⟩ else o
  ⟨if g.nx then -p.X else p.X, if g.ny then -p.Y else p.Y⟩

/-- Composition of symmetries: `(a.comp b).apply = a.apply ∘ b.apply`. -/
def Sym8.comp (a b : Sym8) : Sym8 :=
  ⟨Bool.xor a.s b.s,
   Bool.xor a.nx (if a.s then b.ny else b.nx),
   Bool.xor a.ny (if a.s then b.nx else b.ny)⟩

/-- Inverse of a symmetry. -/
def Sym8.inv (g : Sym8) : Sym8 :=
  ⟨g.s, if g.s then g.ny else g.nx, if g.s then g.nx else g.ny⟩

theorem Sym8.apply_comp (a b : Sym8) (o : Offset) :
    (a.comp b).apply o = a.apply (b.apply o) := by
  rcases a with ⟨a1, a2, a3⟩
  rcases b with ⟨b1, b2, b3⟩
  cases a1 <;> cases a2 <;> cases a3 <;> cases b1 <;> cases b2 <;> cases b3 <;>
    simp [Sym8.apply, Sym8.comp]

theorem Sym8.apply_inv_left (g : Sym8) (o : Offset) :
    g.inv.apply (g.apply o) = o := by
  rcases g with ⟨g1, g2, g3⟩
  cases g1 <;> cases g2 <;> cases g3 <;> simp [Sym8.apply, Sym8.inv]

theorem Sym8.apply_inv_right (g : Sym8) (o : Offset) :
    g.apply (g.inv.apply o) = o := by
  rcases g with ⟨g1, g2, g3⟩
  cases g1 <;> cases g2 <;> cases g3 <;> simp [Sym8.apply, Sym8.inv]

theorem Sym8.cheb_apply (g : Sym8) (o : Offset) :
    (g.apply o).Chebyshev = o.Chebyshev := by
  rcases g with ⟨g1, g2, g3⟩
  cases g1 <;> cases g2 <;> cases g3 <;>
    simp [Sym8.apply, Offset.Chebyshev, abs_neg, max_comm]

theorem mem_mirrorEdges {f : Offset → Offset} {es : List Edge} {e : Edge} :
    e ∈ mirrorEdges f es ↔ ∃ e₀, e₀ ∈ es ∧ e = (f e₀.1, f e₀.2) := by
  unfold mirrorEdges
  rw [List.mem_map]
  constructor
  · rintro ⟨a, ha, hae⟩
    exact ⟨a, ha, hae.symm⟩
  · rintro ⟨a, ha, hae⟩
    exact ⟨a, ha, hae.symm⟩

/-- The diagonal mirror of `completeTable`'s first loop. -/
def mirD (o : Offset) : Offset := ⟨o.Y, o.X⟩

/-- The X reflection of `completeTable`'s second loop. -/
def mirX (o : Offset) : Offset := ⟨-o.X, o.Y⟩

/-- The Y reflection of `completeTable`'s second loop. -/
def mirY (o : Offset) : Offset := ⟨o.X, -o.Y⟩

/-- The point reflection of `completeTable`'s second loop. -/
def mirXY (o : Offset) : Offset := ⟨-o.X, -o.Y⟩

theorem completeTable_eq (t : List Edge) :
    completeTable t =
      ((t ++ mirrorEdges mirD t) ++
        mirrorEdges mirX (t ++ mirrorEdges mirD t)) ++
        mirrorEdges mirY (t ++ mirrorEdges mirD t) ++
        mirrorEdges mirXY (t ++ mirrorEdges mirD t) := rfl

/-- Membership in `computeTable`: exactly the symmetric images of the
octant edges. -/
theorem mem_table {radius : Int} {e : Edge} :
    e ∈ computeTable radius ↔
      ∃ g : Sym8, ∃ e₀, e₀ ∈ octantEdges radius ∧
        e = (g.apply e₀.1, g.apply e₀.2) := by
  unfold computeTable
  rw [completeTable_eq]
  constructor
  · intro h
    rcases List.mem_append.mp h with h | h
    rotate_left
    · obtain ⟨a, ha, he⟩ := mem_mirrorEdges.mp h
      rcases List.mem_append.mp ha with ha | ha
      · exact ⟨⟨false, true, true⟩, a, ha, he⟩
      · obtain ⟨b, hb, hb2⟩ := mem_mirrorEdges.mp ha
        subst hb2
        exact ⟨⟨true, true, true⟩, b, hb, he⟩
    rcases List.mem_append.mp h with h | h
    rotate_left
    · obtain ⟨a, ha, he⟩ := mem_mirrorEdges.mp h
      rcases List.mem_append.mp ha with ha | ha
      · exact ⟨⟨false, false, true⟩, a, ha, he⟩
      · obtain ⟨b, hb, hb2⟩ := mem_mirrorEdges.mp ha
        subst hb2
        exact ⟨⟨true, false, true⟩, b, hb, he⟩
    rcases List.mem_append.mp h with h | h
    rotate_left
    · obtain ⟨a, ha, he⟩ := mem_mirrorEdges.mp h
      rcases List.mem_append.mp ha with ha | ha
      · exact ⟨⟨false, true, false⟩, a, ha, he⟩
      · obtain ⟨b, hb, hb2⟩ := mem_mirrorEdges.mp ha
        subst hb2
        exact ⟨⟨true, true, false⟩, b, hb, he⟩
    rcases List.mem_append.mp h with h | h
    · exact ⟨⟨false, false, false⟩, e, h, rfl⟩
    · obtain ⟨b, hb, he⟩ := mem_mirrorEdges.mp h
      exact ⟨⟨true, false, false⟩, b, hb, he⟩
  · rintro ⟨⟨g1, g2, g3⟩, e₀, h0, he⟩
    subst he
    have inS : ∀ {x : Edge}, x ∈ octantEdges radius ++
        mirrorEdges mirD (octantEdges radius) →
        x ∈ ((octantEdges radius ++ mirrorEdges mirD (octantEdges radius)) ++
          mirrorEdges mirX (octantEdges radius ++ mirrorEdges mirD (octantEdges radius))) ++
          mirrorEdges mirY (octantEdges radius ++ mirrorEdges mirD (octantEdges radius)) ++
          mirrorEdges mirXY (octantEdges radius ++ mirrorEdges mirD (octantEdges radius)) :=
      fun hx => List.mem_append.mpr (Or.inl (List.mem_append.mpr (Or.inl
        (List.mem_append.mpr (Or.inl hx)))))
    have inX : ∀ {x : Edge}, x ∈ mirrorEdges mirX (octantEdges radius ++
        mirrorEdges mirD (octantEdges radius)) →
        x ∈ ((octantEdges radius ++ mirrorEdges mirD (octantEdges radius)) ++
          mirrorEdges mirX (octantEdges radius ++ mirrorEdges mirD (octantEdges radius))) ++
          mirrorEdges mirY (octantEdges radius ++ mirrorEdges mirD (octantEdges radius)) ++
          mirrorEdges mirXY (octantEdges radius ++ mirrorEdges mirD (octantEdges radius)) :=
      fun hx => List.mem_append.mpr (Or.inl (List.mem_append.mpr (Or.inl
        (List.mem_append.mpr (Or.inr hx)))))
    have inY : ∀ {x : Edge}, x ∈ mirrorEdges mirY (octantEdges radius ++
        mirrorEdges mirD (octantEdges radius)) →
        x ∈ ((octantEdges radius ++ mirrorEdges mirD (octantEdges radius)) ++
          mirrorEdges mirX (octantEdges radius ++ mirrorEdges mirD (octantEdges radius))) ++
          mirrorEdges mirY (octantEdges radius ++ mirrorEdges mirD (octantEdges radius)) ++
          mirrorEdges mirXY (octantEdges radius ++ mirrorEdges mirD (octantEdges radius)) :=
      fun hx => List.mem_append.mpr (Or.inl (List.mem_append.mpr (Or.inr hx)))
    have inXY : ∀ {x : Edge}, x ∈ mirrorEdges mirXY (octantEdges radius ++
        mirrorEdges mirD (octantEdges radius)) →
        x ∈ ((octantEdges radius ++ mirrorEdges mirD (octantEdges radius)) ++
          mirrorEdges mirX (octantEdges radius ++ mirrorEdges mirD (octantEdges radius))) ++
          mirrorEdges mirY (octantEdges radius ++ mirrorEdges mirD (octantEdges radius)) ++
          mirrorEdges mirXY (octantEdges radius ++ mirrorEdges mirD (octantEdges radius)) :=
      fun hx => List.mem_append.mpr (Or.inr hx)
    have inT : ∀ {x : Edge}, x ∈ octantEdges radius →
        x ∈ octantEdges radius ++ mirrorEdges mirD (octantEdges radius) :=
      fun hx => List.mem_append.mpr (Or.inl hx)
    have inD : ∀ {x : Edge}, x ∈ mirrorEdges mirD (octantEdges radius) →
        x ∈ octantEdges radius ++ mirrorEdges mirD (octantEdges radius) :=
      fun hx => List.mem_append.mpr (Or.inr hx)
    cases g1 <;> cases g2 <;> cases g3
    · exact inS (inT h0)
    · exact inY (mem_mirrorEdges.mpr ⟨e₀, inT h0, rfl⟩)
    · exact inX (mem_mirrorEdges.mpr ⟨e₀, inT h0, rfl⟩)
    · exact inXY (mem_mirrorEdges.mpr ⟨e₀, inT h0, rfl⟩)
    · exact inS (inD (mem_mirrorEdges.mpr ⟨e₀, h0, rfl⟩))
    · exact inY (mem_mirrorEdges.mpr
        ⟨(mirD e₀.1, mirD e₀.2), inD (mem_mirrorEdges.mpr ⟨e₀, h0, rfl⟩), rfl⟩)
    · exact inX (mem_mirrorEdges.mpr
        ⟨(mirD e₀.1, mirD e₀.2), inD (mem_mirrorEdges.mpr ⟨e₀, h0, rfl⟩), rfl⟩)
    · exact inXY (mem_mirrorEdges.mpr
        ⟨(mirD e₀.1, mirD e₀.2), inD (mem_mirrorEdges.mpr ⟨e₀, h0, rfl⟩), rfl⟩)

/-- Chebyshev norm of an offset in the half-octant region. -/
theorem cheb_region {x y : Int} (h0 : 0 ≤ y) (h1 : y ≤ x) :
    (⟨x, y⟩ : Offset).Chebyshev = x := by
  unfold Offset.Chebyshev
  simp only
  rw [abs_of_nonneg (le_trans h0 h1), abs_of_nonneg h0]
  exact max_eq_left h1

/-- Chebyshev norm in terms of `Int.natAbs` (for `omega`). -/
theorem cheb_natAbs (o : Offset) :
    o.Chebyshev = max ((o.X.natAbs : Int)) ((o.Y.natAbs : Int)) := by
  unfold Offset.Chebyshev
  rw [Int.abs_eq_natAbs, Int.abs_eq_natAbs]

/-- Chebyshev data of an octant edge. -/
theorem oct_cheb {radius : Int} {e : Edge} (h : e ∈ octantEdges radius) :
    e.1.Chebyshev = e.1.X ∧ e.2.Chebyshev = e.1.X + 1 := by
  obtain ⟨h1, h2, h3, h4, h5, _, _⟩ := oct_shape h
  constructor
  · exact cheb_region h1 h2
  · have hc : (⟨e.2.X, e.2.Y⟩ : Offset).Chebyshev = e.2.X := cheb_region h4 h5
    calc e.2.Chebyshev = e.2.X := hc
      _ = e.1.X + 1 := h3

/-- Every edge of the full table increases the Chebyshev norm by one, and
the norms are bounded by the radius. -/
theorem table_cheb {radius : Int} {e : Edge} (h : e ∈ computeTable radius) :
    e.2.Chebyshev = e.1.Chebyshev + 1 ∧ 0 ≤ e.1.Chebyshev ∧
      (e.1.Chebyshev = 0 ∨ e.1.Chebyshev ≤ radius - 1) := by
  rw [mem_table] at h
  obtain ⟨g, e₀, h0, he⟩ := h
  obtain ⟨hc1, hc2⟩ := oct_cheb h0
  obtain ⟨hs1, hs2, _, _, _, hs6, hs7⟩ := oct_shape h0
  have e1 : e.1 = g.apply e₀.1 := by rw [he]
  have e2 : e.2 = g.apply e₀.2 := by rw [he]
  rw [e1, e2, Sym8.cheb_apply, Sym8.cheb_apply, hc1, hc2]
  refine ⟨rfl, hs6, ?_⟩
  rcases hs7 with h | h
  · exact Or.inl h
  · exact Or.inr h

/-- The identity-like behaviour of a symmetry matching two octant
destinations: the sources then match under the same symmetry. -/
theorem oct_sym_src {radius : Int} {g : Sym8} {e e' : Edge}
    (h : e ∈ octantEdges radius) (h' : e' ∈ octantEdges radius)
    (hd : g.apply e'.2 = e.2) : g.apply e'.1 = e.1 := by
  obtain ⟨a1, a2, a3, a4, a5, a6, a7⟩ := oct_shape h
  obtain ⟨b1, b2, b3, b4, b5, b6, b7⟩ := oct_shape h'
  have hX := congrArg Offset.X hd
  have hY := congrArg Offset.Y hd
  rcases g with ⟨g1, g2, g3⟩
  cases g1 <;> cases g2 <;> cases g3
  · -- identity
    have hd' : e'.2 = e.2 := by
      simp [Sym8.apply] at hX hY
      cases he2 : e'.2
      cases he2' : e.2
      simp_all
    have := oct_dst_unique h' h hd'
    calc Sym8.apply ⟨false, false, false⟩ e'.1 = e'.1 := rfl
      _ = e.1 := this
  · -- negate Y: both destinations on the axis
    simp [Sym8.apply] at hX hY
    have hax : e.2.Y = 0 := by omega
    have hax' : e'.2.Y = 0 := by omega
    have q := oct_dst_axis h hax
    have q' := oct_dst_axis h' hax'
    rw [q, q']
    simp [Sym8.apply]
    omega
  · -- negate X: impossible
    exfalso
    simp [Sym8.apply] at hX hY
    omega
  · -- negate X and Y: impossible
    exfalso
    simp [Sym8.apply] at hX hY
    omega
  · -- diagonal swap: both destinations on the diagonal
    simp [Sym8.apply] at hX hY
    have hdg : e.2.X = e.2.Y := by omega
    have hdg' : e'.2.X = e'.2.Y := by omega
    have q := oct_dst_diag h hdg
    have q' := oct_dst_diag h' hdg'
    rw [q, q']
    simp [Sym8.apply]
    omega
  · -- swap then negate Y: impossible
    exfalso
    simp [Sym8.apply] at hX hY
    omega
  · -- swap then negate X: impossible
    exfalso
    simp [Sym8.apply] at hX hY
    omega
  · -- swap then negate both: impossible
    exfalso
    simp [Sym8.apply] at hX hY
    omega

/-- Unique predecessor: two table edges into the same destination have the
same source. -/
theorem table_dst_unique {radius : Int} {s d s' : Offset}
    (h : (s, d) ∈ computeTable radius) (h' : (s', d) ∈ computeTable radius) :
    s = s' := by
  rw [mem_table] at h h'
  obtain ⟨g, a, ha, hae⟩ := h
  obtain ⟨g', b, hb, hbe⟩ := h'
  have has : s = g.apply a.1 := congrArg Prod.fst hae
  have had : d = g.apply a.2 := congrArg Prod.snd hae
  have hbs : s' = g'.apply b.1 := congrArg Prod.fst hbe
  have hbd : d = g'.apply b.2 := congrArg Prod.snd hbe
  have hdd : (g.inv.comp g').apply b.2 = a.2 := by
    rw [Sym8.apply_comp]
    rw [← hbd, had]
    exact Sym8.apply_inv_left g a.2
  have hss := oct_sym_src ha hb hdd
  rw [has, hbs]
  calc g.apply a.1 = g.apply ((g.inv.comp g').apply b.1) := by rw [hss]
    _ = g.apply (g.inv.apply (g'.apply b.1)) := by rw [Sym8.apply_comp]
    _ = g'.apply b.1 := Sym8.apply_inv_right g _

/-- The full table is closed under all eight symmetries. -/
theorem table_sym_closed {radius : Int} {e : Edge}
    (h : e ∈ computeTable radius) (g : Sym8) :
    (g.apply e.1, g.apply e.2) ∈ computeTable radius := by
  rw [mem_table] at h ⊢
  obtain ⟨g0, e₀, h0, he⟩ := h
  refine ⟨g.comp g0, e₀, h0, ?_⟩
  rw [he]
  simp [Sym8.apply_comp]

/-- The tables are monotone in the radius. -/
theorem table_mono {r1 r2 : Int} (hr : r1 ≤ r2) {e : Edge}
    (h : e ∈ computeTable r1) : e ∈ computeTable r2 := by
  rw [mem_table] at h ⊢
  obtain ⟨g, e₀, h0, he⟩ := h
  exact ⟨g, e₀, oct_mono hr h0, he⟩

/-- Sign decomposition of an offset through a non-swapping symmetry. -/
theorem sym_sign_repr (x y : Int) :
    (⟨x, y⟩ : Offset) =
      Sym8.apply ⟨false, decide (x < 0), decide (y < 0)⟩
        ⟨(x.natAbs : Int), (y.natAbs : Int)⟩ := by
  have hswap : Sym8.apply ⟨false, decide (x < 0), decide (y < 0)⟩
      ⟨(x.natAbs : Int), (y.natAbs : Int)⟩ =
      ⟨if x < 0 then -(x.natAbs : Int) else (x.natAbs : Int),
       if y < 0 then -(y.natAbs : Int) else (y.natAbs : Int)⟩ := by
    simp [Sym8.apply, decide_eq_true_eq]
  rw [hswap]
  simp only [Offset.mk.injEq]
  constructor <;> split <;> omega

/-- Sign decomposition of an offset through a swapping symmetry. -/
theorem sym_sign_repr_swap (x y : Int) :
    (⟨x, y⟩ : Offset) =
      Sym8.apply ⟨true, decide (x < 0), decide (y < 0)⟩
        ⟨(y.natAbs : Int), (x.natAbs : Int)⟩ := by
  have hswap : Sym8.apply ⟨true, decide (x < 0), decide (y < 0)⟩
      ⟨(y.natAbs : Int), (x.natAbs : Int)⟩ =
      ⟨if x < 0 then -(x.natAbs : Int) else (x.natAbs : Int),
       if y < 0 then -(y.natAbs : Int) else (y.natAbs : Int)⟩ := by
    simp [Sym8.apply, decide_eq_true_eq]
  rw [hswap]
  simp only [Offset.mk.injEq]
  constructor <;> split <;> omega

/-- Every offset has a symmetric image in the half-octant region, with the
same Chebyshev norm. -/
theorem exists_sym_region (d : Offset) :
    ∃ g : Sym8, ∃ a b : Int, 0 ≤ b ∧ b ≤ a ∧ d = g.apply ⟨a, b⟩ ∧
      (⟨a, b⟩ : Offset).Chebyshev = d.Chebyshev := by
  have hax : (0 : Int) ≤ (d.X.natAbs : Int) := Int.natCast_nonneg _
  have hay : (0 : Int) ≤ (d.Y.natAbs : Int) := Int.natCast_nonneg _
  by_cases hc : (d.Y.natAbs : Int) ≤ (d.X.natAbs : Int)
  · have hcheb : d.Chebyshev = (d.X.natAbs : Int) := by
      rw [cheb_natAbs]
      exact max_eq_left hc
    refine ⟨⟨false, decide (d.X < 0), decide (d.Y < 0)⟩,
      (d.X.natAbs : Int), (d.Y.natAbs : Int), hay, hc, ?_, ?_⟩
    · cases d
      exact sym_sign_repr _ _
    · rw [cheb_region hay hc, hcheb]
  · push_neg at hc
    have hcheb : d.Chebyshev = (d.Y.natAbs : Int) := by
      rw [cheb_natAbs]
      exact max_eq_right hc.le
    refine ⟨⟨true, decide (d.X < 0), decide (d.Y < 0)⟩,
      (d.Y.natAbs : Int), (d.X.natAbs : Int), hax, hc.le, ?_, ?_⟩
    · cases d
      exact sym_sign_repr_swap _ _
    · rw [cheb_region hax hc.le, hcheb]

/-- Coverage: every offset with Chebyshev norm in `[1, radius]` is the
destination of some table edge. -/
theorem table_coverage {radius : Int} {d : Offset} (h1 : 1 ≤ d.Chebyshev)
    (h2 : d.Chebyshev ≤ radius) : ∃ s, (s, d) ∈ computeTable radius := by
  obtain ⟨g, a, b, hb0, hba, hd, hch⟩ := exists_sym_region d
  have ha : (⟨a, b⟩ : Offset).Chebyshev = a := cheb_region hb0 hba
  obtain ⟨s₀, hs₀⟩ := oct_coverage (show 1 ≤ a by omega) (show a ≤ radius by omega)
    hb0 hba
  refine ⟨g.apply s₀, ?_⟩
  rw [mem_table]
  refine ⟨g, (s₀, ⟨a, b⟩), hs₀, ?_⟩
  rw [hd]

/-- No table edge points back at the origin. -/
theorem table_dst_cheb_pos {radius : Int} {e : Edge}
    (h : e ∈ computeTable radius) : 1 ≤ e.2.Chebyshev := by
  obtain ⟨h1, h2, _⟩ := table_cheb h
  omega

theorem table_dst_ne_zero {radius : Int} {e : Edge}
    (h : e ∈ computeTable radius) : e.2 ≠ Offset.zero := by
  intro hz
  have := table_dst_cheb_pos h
  rw [hz] at this
  have h0 : Offset.zero.Chebyshev = 0 := by
    rw [Offset.chebyshev_zero_iff]
  omega

/-! ### Key/value association lists

Go maps are embedded as association lists with unique keys, written and
read only through `insertKV`/`lookupKV`, which implement exactly the Go
assignment and index operations. -/

/-- Go map index operation: `m[k]`, as an `Option`. -/
def lookupKV {α : Type} : List (Offset × α) → Offset → Option α
  | [], _ => none
  | e :: t, k => if e.1 = k then some e.2 else lookupKV t k

/-- Go `_, ok := m[k]` presence test. -/
def containsKey {α : Type} (l : List (Offset × α)) (k : Offset) : Bool :=
  (lookupKV l k).isSome

/-- Go map assignment `m[k] = v` (overwrite or append). -/
def insertKV {α : Type} : List (Offset × α) → Offset → α → List (Offset × α)
  | [], k, v => [(k, v)]
  | e :: t, k, v => if e.1 = k then (k, v) :: t else e :: insertKV t k v

theorem lookup_insert_self {α : Type} (l : List (Offset × α)) (k : Offset) (v : α) :
    lookupKV (insertKV l k v) k = some v := by
  induction l with
  | nil => simp [insertKV, lookupKV]
  | cons e t ih =>
    unfold insertKV
    by_cases he : e.1 = k
    · rw [if_pos he]
      simp [lookupKV]
    · rw [if_neg he]
      unfold lookupKV
      rw [if_neg he]
      exact ih

theorem lookup_insert_ne {α : Type} (l : List (Offset × α)) (k k' : Offset) (v : α)
    (h : k' ≠ k) : lookupKV (insertKV l k v) k' = lookupKV l k' := by
  induction l with
  | nil =>
    simp only [insertKV, lookupKV]
    rw [if_neg fun h' => h h'.symm]
  | cons e t ih =>
    unfold insertKV
    by_cases he : e.1 = k
    · rw [if_pos he]
      unfold lookupKV
      rw [if_neg (fun h' => h h'.symm), if_neg (by rw [he]; exact fun h' => h h'.symm)]
    · rw [if_neg he]
      unfold lookupKV
      by_cases he' : e.1 = k'
      · rw [if_pos he', if_pos he']
      · rw [if_neg he', if_neg he']
        exact ih

theorem contains_insert_of_contains {α : Type} {l : List (Offset × α)} {k k' : Offset}
    {v : α} (h : containsKey l k' = true) :
    containsKey (insertKV l k v) k' = true := by
  by_cases hk : k' = k
  · subst hk
    unfold containsKey
    rw [lookup_insert_self]
    rfl
  · unfold containsKey at h ⊢
    rw [lookup_insert_ne l k k' v hk]
    exact h

theorem contains_insert_self {α : Type} (l : List (Offset × α)) (k : Offset) (v : α) :
    containsKey (insertKV l k v) k = true := by
  unfold containsKey
  rw [lookup_insert_self]
  rfl

/-! ### The reverse table (source `computeReverseTable`, lines 236-250)

The Go code folds every forward edge `src -> dst` into `reverse[dst] = src`.
The iteration order of the Go map is unspecified; by `table_dst_unique`
every write to a given key carries the same value, so the resulting map
does not depend on the order and the embedding may fold the edge list. -/

/-- `computeReverseTable` (source lines 236-250). -/
def computeReverseTable (radius : Int) : List (Offset × Offset) :=
  (computeTable radius).foldl (fun acc e => insertKV acc e.2 e.1) []

theorem lookup_fold_not_mem (l : List Edge) (acc : List (Offset × Offset))
    (d : Offset) (h : ∀ e ∈ l, e.2 ≠ d) :
    lookupKV (l.foldl (fun a e => insertKV a e.2 e.1) acc) d = lookupKV acc d := by
  induction l generalizing acc with
  | nil => rfl
  | cons e t ih =>
    rw [List.foldl_cons]
    rw [ih _ fun e' he' => h e' (List.mem_cons_of_mem e he')]
    exact lookup_insert_ne acc e.2 d e.1 (fun hq => h e (List.mem_cons_self e t) hq.symm)

theorem lookup_fold_some (l : List Edge) (acc : List (Offset × Offset))
    (d s : Offset)
    (hmem : (s, d) ∈ l) (huniq : ∀ s', (s', d) ∈ l → s' = s) :
    lookupKV (l.foldl (fun a e => insertKV a e.2 e.1) acc) d = some s := by
  induction l generalizing acc with
  | nil => cases hmem
  | cons e t ih =>
    rw [List.foldl_cons]
    by_cases hocc : ∃ s', (s', d) ∈ t
    · obtain ⟨s', hs'⟩ := hocc
      have hs's : s' = s := huniq s' (List.mem_cons_of_mem e hs')
      subst hs's
      exact ih _ hs' fun s'' hs'' => huniq s'' (List.mem_cons_of_mem e hs'')
    · push_neg at hocc
      have hel : e = (s, d) := by
        rcases List.mem_cons.mp hmem with h | h
        · exact h.symm
        · exact absurd h (hocc s)
      subst hel
      rw [lookup_fold_not_mem t _ d fun e' he' hq => hocc e'.1 (by
        have : e' = (e'.1, d) := by rw [← hq]
        rw [← this]
        exact he')]
      exact lookup_insert_self acc d s

theorem lookup_fold_mem (l : List Edge) (acc : List (Offset × Offset))
    (d s : Offset)
    (h : lookupKV (l.foldl (fun a e => insertKV a e.2 e.1) acc) d = some s) :
    (s, d) ∈ l ∨ lookupKV acc d = some s := by
  induction l generalizing acc with
  | nil => exact Or.inr h
  | cons e t ih =>
    rw [List.foldl_cons] at h
    rcases ih _ h with hm | hm
    · exact Or.inl (List.mem_cons_of_mem e hm)
    · by_cases hd : e.2 = d
      · rw [← hd, lookup_insert_self] at hm
        left
        have : e = (s, e.2) := by
          cases e
          simp_all
        rw [hd] at this
        rw [this]
        exact List.mem_cons_self _ _
      · rw [lookup_insert_ne acc e.2 d e.1 (fun hq => hd hq.symm)] at hm
        exact Or.inr hm

/-- The reverse lookup returns exactly the unique forward predecessor. -/
theorem rev_lookup_iff {radius : Int} {d s : Offset} :
    lookupKV (computeReverseTable radius) d = some s ↔
      (s, d) ∈ computeTable radius := by
  constructor
  · intro h
    rcases lookup_fold_mem _ _ _ _ h with hm | hm
    · exact hm
    · cases hm
  · intro h
    exact lookup_fold_some _ _ _ _ h fun s' h' => table_dst_unique h' h

/-- The reverse table has a key exactly at the destinations of the forward
table. -/
theorem rev_contains_iff {radius : Int} {d : Offset} :
    containsKey (computeReverseTable radius) d = true ↔
      ∃ s, (s, d) ∈ computeTable radius := by
  unfold containsKey
  rw [Option.isSome_iff_exists]
  constructor
  · rintro ⟨s, hs⟩
    exact ⟨s, rev_lookup_iff.mp hs⟩
  · rintro ⟨s, hs⟩
    exact ⟨s, rev_lookup_iff.mpr hs⟩

/-- One Go-`table[goal]` step of the predecessor chain: a missing key
returns the zero value `Offset{0, 0}`, exactly as in the source. -/
def stepRev (radius : Int) (o : Offset) : Offset :=
  (lookupKV (computeReverseTable radius) o).getD Offset.zero

theorem stepRev_zero (radius : Int) : stepRev radius Offset.zero = Offset.zero := by
  unfold stepRev
  cases hl : lookupKV (computeReverseTable radius) Offset.zero with
  | none => rfl
  | some s =>
    exact absurd rfl (table_dst_ne_zero (rev_lookup_iff.mp hl))

theorem stepRev_cheb {radius : Int} {o : Offset}
    (h : containsKey (computeReverseTable radius) o = true) :
    (stepRev radius o).Chebyshev = o.Chebyshev - 1 := by
  unfold containsKey at h
  rw [Option.isSome_iff_exists] at h
  obtain ⟨s, hs⟩ := h
  have hm := rev_lookup_iff.mp hs
  obtain ⟨hc, _, _⟩ := table_cheb hm
  have hc' : o.Chebyshev = s.Chebyshev + 1 := hc
  unfold stepRev
  rw [hs]
  simp only [Option.getD_some]
  omega

/-- The predecessor chain reaches the origin within `Chebyshev` steps. -/
theorem chain_reaches_zero {radius : Int} :
    ∀ (k : Nat) (o : Offset), o.Chebyshev ≤ (k : Int) → o.Chebyshev ≤ radius →
      (stepRev radius)^[k] o = Offset.zero := by
  intro k
  induction k with
  | zero =>
    intro o hk _
    have h0 := o.chebyshev_nonneg
    have : o.Chebyshev = 0 := by omega
    rw [Function.iterate_zero_apply]
    exact o.chebyshev_zero_iff.mp this
  | succ k ih =>
    intro o hk hr
    rw [Function.iterate_succ_apply]
    by_cases hz : o = Offset.zero
    · subst hz
      rw [stepRev_zero]
      refine ih Offset.zero ?_ ?_ <;>
        · have : Offset.zero.Chebyshev = 0 := (Offset.chebyshev_zero_iff Offset.zero).mpr rfl
          omega
    · have h1 : 1 ≤ o.Chebyshev := by
        have := o.chebyshev_nonneg
        have hne : o.Chebyshev ≠ 0 := fun hq => hz (o.chebyshev_zero_iff.mp hq)
        omega
      obtain ⟨s, hs⟩ := table_coverage h1 hr
      have hck : containsKey (computeReverseTable radius) o = true := by
        rw [rev_contains_iff]
        exact ⟨s, hs⟩
      have hd := stepRev_cheb hck
      refine ih _ ?_ ?_ <;> omega

/-! ### Trace (source lines 186-204) -/

/-- `getReverseTable` (source lines 225-233): the per-radius cache is
transparent in a pure model, so this is `computeReverseTable` at the
radius implied by the offset. -/
def getReverseTable (o : Offset) : List (Offset × Offset) :=
  computeReverseTable o.Chebyshev

/-- The Trace loop (source lines 192-195), with one unit of fuel per
iteration.  `traceAux_fuel_ge` shows that `Chebyshev + 1` units always
suffice, so the fuel is a modelling artifact only. -/
def traceAux (rt : List (Offset × Offset)) : Nat → Offset → List Offset
  | 0, _ => []
  | fuel+1, g =>
    if g = Offset.zero then []
    else g :: traceAux rt fuel ((lookupKV rt g).getD Offset.zero)

/-- `Trace` (source lines 186-204): walk the reverse table from the goal
back to the origin, then reverse the accumulated path. -/
def Trace (goal : Offset) : List Offset :=
  (traceAux (getReverseTable goal) (goal.Chebyshev.toNat + 1) goal).reverse

/-- The fuel given to `traceAux` is sufficient: any larger fuel produces
the same list, because the predecessor chain reaches the origin within
`Chebyshev` steps. -/
theorem traceAux_fuel_ge {radius : Int} :
    ∀ (k k' : Nat) (g : Offset), g.Chebyshev ≤ (k : Int) →
      g.Chebyshev ≤ radius → k ≤ k' →
      traceAux (computeReverseTable radius) (k + 1) g =
        traceAux (computeReverseTable radius) (k' + 1) g := by
  intro k
  induction k with
  | zero =>
    intro k' g hk hr _
    have h0 := g.chebyshev_nonneg
    have hz : g = Offset.zero := g.chebyshev_zero_iff.mp (by omega)
    subst hz
    cases k' <;> simp [traceAux]
  | succ k ih =>
    intro k' g hk hr hkk
    by_cases hz : g = Offset.zero
    · subst hz
      cases k' <;> simp [traceAux]
    · obtain ⟨k'', rfl⟩ : ∃ k'', k' = k'' + 1 := ⟨k' - 1, by omega⟩
      have hsucc : ∀ (m : Nat) (h : Offset),
          traceAux (computeReverseTable radius) (m + 1) h =
            if h = Offset.zero then []
            else h :: traceAux (computeReverseTable radius) m
              ((lookupKV (computeReverseTable radius) h).getD Offset.zero) :=
        fun m h => rfl
      rw [hsucc (k + 1) g, hsucc (k'' + 1) g, if_neg hz, if_neg hz]
      congr 1
      have h1 : 1 ≤ g.Chebyshev := by
        have := g.chebyshev_nonneg
        have hne : g.Chebyshev ≠ 0 := fun hq => hz (g.chebyshev_zero_iff.mp hq)
        omega
      obtain ⟨s, hs⟩ := table_coverage h1 hr
      have hls := rev_lookup_iff.mpr hs
      rw [hls]
      simp only [Option.getD_some]
      have hsc : g.Chebyshev = s.Chebyshev + 1 := (table_cheb hs).1
      exact ih k'' s (by omega) (by omega) (by omega)

theorem zero_not_mem_traceAux (rt : List (Offset × Offset)) :
    ∀ (fuel : Nat) (g : Offset), Offset.zero ∉ traceAux rt fuel g := by
  intro fuel
  induction fuel with
  | zero => intro g; simp [traceAux]
  | succ fuel ih =>
    intro g
    unfold traceAux
    split
    · simp
    · rename_i hg
      rw [List.mem_cons]
      rintro (h | h)
      · exact hg h.symm
      · exact ih _ h

/-- C7: `Trace(goal)` never contains the origin offset; when the goal is
not the origin its last element is the goal, and when the goal is the
origin the result is empty. -/
theorem C7_trace_endpoints (goal : Offset) :
    (goal = Offset.zero → Trace goal = []) ∧
    (goal ≠ Offset.zero → (Trace goal).getLast? = some goal) ∧
    Offset.zero ∉ Trace goal := by
  refine ⟨?_, ?_, ?_⟩
  · intro h
    subst h
    unfold Trace
    rw [traceAux, if_pos rfl]
    rfl
  · intro h
    unfold Trace
    rw [List.getLast?_reverse, traceAux, if_neg h]
    rfl
  · unfold Trace
    rw [List.mem_reverse]
    exact zero_not_mem_traceAux _ _ _

/-- Witness for C7 at the concrete goals `(0, 0)` and `(3, 1)`. -/
theorem C7_witness :
    Trace ⟨0, 0⟩ = [] ∧ (Trace ⟨3, 1⟩).getLast? = some ⟨3, 1⟩ ∧
    Offset.zero ∉ Trace ⟨3, 1⟩ :=
  ⟨(C7_trace_endpoints ⟨0, 0⟩).1 rfl,
   (C7_trace_endpoints ⟨3, 1⟩).2.1 (by decide),
   (C7_trace_endpoints ⟨3, 1⟩).2.2⟩

/-- C4: for radius at least one, from every non-origin key of the reverse
table the predecessor chain reaches the origin within `radius` steps while
strictly decreasing the Chebyshev norm (hence no cycles), and each
destination has a unique predecessor, so the lookup loop in `Trace`
terminates. -/
theorem C4_reverse_chain (radius : Int) (h1 : 1 ≤ radius) :
    (∀ o : Offset, containsKey (computeReverseTable radius) o = true →
      o ≠ Offset.zero →
      (stepRev radius)^[radius.toNat] o = Offset.zero ∧
      (stepRev radius o).Chebyshev < o.Chebyshev) ∧
    (∀ s s' d : Offset, (s, d) ∈ computeTable radius →
      (s', d) ∈ computeTable radius → s = s') := by
  constructor
  · intro o hk hnz
    obtain ⟨s, hs⟩ := rev_contains_iff.mp hk
    have hc1 : o.Chebyshev = s.Chebyshev + 1 := (table_cheb hs).1
    have hc2 : 0 ≤ s.Chebyshev := (table_cheb hs).2.1
    have hc3 : s.Chebyshev = 0 ∨ s.Chebyshev ≤ radius - 1 := (table_cheb hs).2.2
    have hor : o.Chebyshev ≤ radius := by omega
    constructor
    · exact chain_reaches_zero radius.toNat o (by omega) hor
    · rw [stepRev_cheb hk]
      omega
  · intro s s' d h h'
    exact table_dst_unique h h'

/-- Witness for C4 at radius 2 and key `(2, 1)`. -/
theorem C4_witness :
    (stepRev 2)^[(2 : Int).toNat] ⟨2, 1⟩ = Offset.zero ∧
    (stepRev 2 ⟨2, 1⟩).Chebyshev < (⟨2, 1⟩ : Offset).Chebyshev :=
  (C4_reverse_chain 2 (by norm_num)).1 ⟨2, 1⟩ (by decide) (by decide)

/-- C5: for radius at least one, the directional table is closed under all
eight plane symmetries (the four listed reflections and all their
compositions are exactly the eight elements of `Sym8`): any symmetric image
of an edge is again an edge, hence a key holding the reflected destination. -/
theorem C5_table_symmetry (radius : Int) (h1 : 1 ≤ radius) (s d : Offset)
    (h : (s, d) ∈ computeTable radius) (g : Sym8) :
    (g.apply s, g.apply d) ∈ computeTable radius :=
  table_sym_closed h g

/-- Witness for C5: the seed edge at radius 1 and the diagonal swap. -/
theorem C5_witness :
    ((⟨0, 1⟩ : Offset), (⟨0, 1⟩ : Offset)) =
      ((Sym8.apply ⟨true, false, false⟩ ⟨1, 0⟩), (⟨0, 1⟩ : Offset)) ∧
    ((Sym8.apply ⟨true, false, false⟩ ⟨0, 0⟩),
      Sym8.apply ⟨true, false, false⟩ ⟨1, 0⟩) ∈ computeTable 1 :=
  ⟨rfl, C5_table_symmetry 1 (by norm_num) ⟨0, 0⟩ ⟨1, 0⟩ (by decide)
    ⟨true, false, false⟩⟩

/-- C8: for radius at least one, every key and every edge destination of
the table has Chebyshev distance at most `radius + 1` from the origin. -/
theorem C8_table_bounds (radius : Int) (h1 : 1 ≤ radius) (e : Edge)
    (h : e ∈ computeTable radius) :
    e.1.Chebyshev ≤ radius + 1 ∧ e.2.Chebyshev ≤ radius + 1 := by
  obtain ⟨hc1, hc2, hc3⟩ := table_cheb h
  omega

/-- Witness for C8 at radius 1 and the seed edge. -/
theorem C8_witness :
    ((⟨0, 0⟩ : Offset), (⟨1, 0⟩ : Offset)).1.Chebyshev ≤ 1 + 1 ∧
    ((⟨0, 0⟩ : Offset), (⟨1, 0⟩ : Offset)).2.Chebyshev ≤ 1 + 1 :=
  C8_table_bounds 1 (by norm_num) _ (by decide)

/-! ### Tiles and the FoV flood (source lines 10-50)

Tiles are pointers in Go; here they are identifiers resolved through a
`TileGraph`.  `adj t d` is `t.Adjacent[d]` with `none` for a missing map
entry or a nil pointer; dereferencing a nil tile (`neighbor.Lite`,
`tile.Adjacent`, `pos.Adjacent`) is a Go panic, modelled as an explicit
failure outcome. -/

/-- The ambient tile graph: transparency flag (`Lite`), adjacency map
(`Adjacent`) and position (`Offset`) of each tile. -/
structure TileGraph where
  adj : Nat → Offset → Option Nat
  lite : Nat → Bool
  toff : Nat → Offset

/-- The FoV result map `map[Offset]*Tile`: a `none` value records a nil
tile, exactly as source line 36 deliberately does. -/
abbrev FovMap := List (Offset × Option Nat)

/-- Flood state: the partial result and the work stack.  The stack top is
the list head; Go pushes and pops at the slice end, which is the same
LIFO discipline. -/
structure FState where
  fov : FovMap
  stack : List Offset

/-- Outcome of the flood: a Go panic, fuel exhaustion of the model (never
reached by an actual run, and never identified with a panic), or the
final map. -/
inductive FOut where
  | panicked : FOut
  | fuelOut : FOut
  | done : FovMap → FOut
deriving DecidableEq

/-- The inner loop over `table[off]` (source lines 33-44): resolve each
neighbor through the live adjacency of the popped tile, record it (nil
included), then test `neighbor.Lite` — a panic when the neighbor is nil —
and push transparent neighbors. -/
def processAdjs (G : TileGraph) (t : Nat) (off : Offset) :
    List Offset → FState → Option FState
  | [], st => some st
  | adj :: rest, st =>
    let nb := G.adj t (adj.Sub off)
    let fov' := insertKV st.fov adj nb
    match nb with
    | none => none
    | some nbid =>
      processAdjs G t off rest
        ⟨fov', if G.lite nbid then adj :: st.stack else st.stack⟩

/-- The flood loop (source lines 26-45), one unit of fuel per pop.  When
the popped offset has successors, `tile := fov[off]` is dereferenced:
a missing key or a recorded nil tile panics at `tile.Adjacent`. -/
def floodAux (G : TileGraph) (tbl : List Edge) : Nat → FState → FOut
  | 0, _ => .fuelOut
  | fuel+1, st =>
    match st.stack with
    | [] => .done st.fov
    | off :: rest =>
      match dsts tbl off with
      | [] => floodAux G tbl fuel ⟨st.fov, rest⟩
      | d :: ds =>
        match lookupKV st.fov off with
        | some (some t) =>
          match processAdjs G t off (d :: ds) ⟨st.fov, rest⟩ with
          | none => FOut.panicked
          | some st' => floodAux G tbl fuel st'
        | _ => FOut.panicked

/-! ### wallfix (source lines 131-176)

Four bounded marches along the cardinal axes.  Each loop body runs while
the axis offset is a key of the result (even one recording a nil tile),
reads the previous axis tile — panicking if that slot is missing or nil —
and patches the two diagonal neighbors.  Each Go loop executes at most
`radius` iterations, so `radius.toNat` units of fuel reproduce it exactly. -/

/-- The `+x` march of `wallfix` (source lines 140-148). -/
def wallfixPX (G : TileGraph) : Nat → Int → FovMap → Option FovMap
  | 0, _, fov => some fov
  | fuel+1, dx, fov =>
    if containsKey fov ⟨dx, 0⟩ then
      match lookupKV fov ⟨dx - 1, 0⟩ with
      | some (some t) =>
        wallfixPX G fuel (dx + 1)
          (insertKV (insertKV fov ⟨dx, 1⟩ (G.adj t ⟨1, 1⟩)) ⟨dx, -1⟩
            (G.adj t ⟨1, -1⟩))
      | _ => none
    else some fov

/-- The `-x` march of `wallfix` (source lines 149-157). -/
def wallfixMX (G : TileGraph) : Nat → Int → FovMap → Option FovMap
  | 0, _, fov => some fov
  | fuel+1, dx, fov =>
    if containsKey fov ⟨dx, 0⟩ then
      match lookupKV fov ⟨dx + 1, 0⟩ with
      | some (some t) =>
        wallfixMX G fuel (dx - 1)
          (insertKV (insertKV fov ⟨dx, 1⟩ (G.adj t ⟨-1, 1⟩)) ⟨dx, -1⟩
            (G.adj t ⟨-1, -1⟩))
      | _ => none
    else some fov

/-- The `+y` march of `wallfix` (source lines 158-166). -/
def wallfixPY (G : TileGraph) : Nat → Int → FovMap → Option FovMap
  | 0, _, fov => some fov
  | fuel+1, dy, fov =>
    if containsKey fov ⟨0, dy⟩ then
      match lookupKV fov ⟨0, dy - 1⟩ with
      | some (some t) =>
        wallfixPY G fuel (dy + 1)
          (insertKV (insertKV fov ⟨1, dy⟩ (G.adj t ⟨1, 1⟩)) ⟨-1, dy⟩
            (G.adj t ⟨-1, 1⟩))
      | _ => none
    else some fov

/-- The `-y` march of `wallfix` (source lines 167-175). -/
def wallfixMY (G : TileGraph) : Nat → Int → FovMap → Option FovMap
  | 0, _, fov => some fov
  | fuel+1, dy, fov =>
    if containsKey fov ⟨0, dy⟩ then
      match lookupKV fov ⟨0, dy + 1⟩ with
      | some (some t) =>
        wallfixMY G fuel (dy - 1)
          (insertKV (insertKV fov ⟨1, dy⟩ (G.adj t ⟨1, -1⟩)) ⟨-1, dy⟩
            (G.adj t ⟨-1, -1⟩))
      | _ => none
    else some fov

/-- `wallfix` (source lines 131-176): the four marches in source order. -/
def wallfix (G : TileGraph) (fov : FovMap) (radius : Int) : Option FovMap :=
  (wallfixPX G radius.toNat 1 fov).bind fun fov1 =>
    (wallfixMX G radius.toNat (-1) fov1).bind fun fov2 =>
      (wallfixPY G radius.toNat 1 fov2).bind fun fov3 =>
        wallfixMY G radius.toNat (-1) fov3

/-- Fuel given to the flood.  An actual run pops each offset only as often
as it was pushed, pushes only destinations of table edges, and the unique
predecessor chains of `table_dst_unique` bound the total number of pushes
far below this value, so exhaustion is unreachable in any real run; it is
kept as a separate outcome rather than conflated with a panic. -/
def floodFuel (radius : Int) : Nat := 8 ^ (radius.toNat + 4)

/-- `FoV` (source lines 10-50): seed the result and stack with the origin,
flood along the cached table, then run the wall-artifact corrector. -/
def FoV (G : TileGraph) (origin : Nat) (radius : Int) : FOut :=
  match floodAux G (computeTable radius) (floodFuel radius)
      ⟨[(Offset.zero, some origin)], [Offset.zero]⟩ with
  | FOut.done m =>
    match wallfix G m radius with
    | some m' => FOut.done m'
    | none => FOut.panicked
  | out => out

/-! ### LoS (source lines 210-222) -/

/-- Outcome of `LoS`: a Boolean, a panic, or model fuel exhaustion. -/
inductive LosOut where
  | panicked : LosOut
  | fuelOut : LosOut
  | res : Bool → LosOut
deriving DecidableEq

/-- The LoS loop (source lines 213-220).  When `goal.Adjacent[...]` yields
nil, the Go loop would dereference the nil tile at `!goal.Lite` on the
next iteration and panic; this model reports the panic at the step that
produces the nil, which yields the same observable outcome. -/
def losAux (G : TileGraph) (rt : List (Offset × Offset)) (origin : Nat) :
    Nat → Nat → Offset → LosOut
  | 0, _, _ => LosOut.fuelOut
  | fuel+1, goal, curr =>
    if goal = origin then LosOut.res true
    else if G.lite goal = false then LosOut.res false
    else
      let next := (lookupKV rt curr).getD Offset.zero
      match G.adj goal (next.Sub curr) with
      | none => LosOut.panicked
      | some g' => losAux G rt origin fuel g' next

/-- `LoS` (source lines 210-222). -/
def LoS (G : TileGraph) (origin goal : Nat) : LosOut :=
  let curr := (G.toff goal).Sub (G.toff origin)
  losAux G (getReverseTable curr) origin (curr.Chebyshev.toNat + 2) goal curr

/-! ### Flood invariants

`Sv G origin radius o v` says: along the unique table-predecessor chain of
`o`, resolving live adjacency from the origin tile yields the value `v`
at `o`, with every interior tile of the chain transparent.  Every value
the flood ever records satisfies `Sv`, and `Sv` is functional, so
recorded values are stable across overwrites. -/

/-- The chain-resolved value relation. -/
inductive Sv (G : TileGraph) (origin : Nat) (radius : Int) :
    Offset → Option Nat → Prop where
  | zero : Sv G origin radius Offset.zero (some origin)
  | step {p : Offset} {t : Nat} {o : Offset} :
      Sv G origin radius p (some t) →
      (p = Offset.zero ∨ G.lite t = true) →
      (p, o) ∈ computeTable radius →
      Sv G origin radius o (G.adj t (o.Sub p))

/-- `Sv` is functional: the chain and hence the value are unique. -/
theorem Sv_unique {G : TileGraph} {origin : Nat} {radius : Int}
    {o : Offset} {v v' : Option Nat} (h : Sv G origin radius o v)
    (h' : Sv G origin radius o v') : v = v' := by
  induction h generalizing v' with
  | zero =>
    cases h' with
    | zero => rfl
    | step hp hl hm => exact absurd rfl (table_dst_ne_zero hm)
  | step hp hl hm ih =>
    rename_i p t o
    cases h' with
    | zero => exact absurd rfl (table_dst_ne_zero hm)
    | step hp' hl' hm' =>
      rename_i p' t'
      have hpp : p = p' := table_dst_unique hm hm'
      subst hpp
      have := ih hp'
      have ht : t = t' := by injection this
      subst ht
      rfl

/-- The state invariant of the flood. -/
structure FInv (G : TileGraph) (origin : Nat) (radius : Int)
    (fov : FovMap) (stack : List Offset) : Prop where
  val : ∀ o v, lookupKV fov o = some v → Sv G origin radius o v
  zeroMem : lookupKV fov Offset.zero = some (some origin)
  stackLite : ∀ o ∈ stack, o = Offset.zero ∨
    ∃ t, lookupKV fov o = some (some t) ∧ G.lite t = true
  par : ∀ o v, lookupKV fov o = some v → o = Offset.zero ∨
    ∃ p tp, (p, o) ∈ computeTable radius ∧
      lookupKV fov p = some (some tp) ∧ (p = Offset.zero ∨ G.lite tp = true)

/-- Inserting an `Sv`-consistent value preserves every existing lookup
(an overwrite writes the same value, by functionality of `Sv`). -/
theorem insert_lookup_sv {G : TileGraph} {origin : Nat} {radius : Int}
    {fov : FovMap} {d : Offset} {v : Option Nat}
    (hval : ∀ o w, lookupKV fov o = some w → Sv G origin radius o w)
    (hsv : Sv G origin radius d v) :
    ∀ o w, lookupKV fov o = some w → lookupKV (insertKV fov d v) o = some w := by
  intro o w hw
  by_cases ho : o = d
  · subst ho
    have hvw : w = v := Sv_unique (hval o w hw) hsv
    rw [hvw, lookup_insert_self]
  · rw [lookup_insert_ne _ _ _ _ ho]
    exact hw

theorem contains_insert_elim {α : Type} {l : List (Offset × α)} {k k' : Offset}
    {v : α} (h : containsKey (insertKV l k v) k' = true) :
    containsKey l k' = true ∨ k' = k := by
  by_cases hk : k' = k
  · exact Or.inr hk
  · unfold containsKey at h ⊢
    rw [lookup_insert_ne _ _ _ _ hk] at h
    exact Or.inl h

/-- Master specification of `processAdjs`: the invariant is preserved, the
result map only grows (and only by destinations of the processed list),
the base stack survives, and every processed destination is recorded with
its chain value and pushed when transparent. -/
theorem processAdjs_spec {G : TileGraph} {origin : Nat} {radius : Int}
    {t : Nat} {off : Offset} :
    ∀ (ds : List Offset) (fov : FovMap) (stack : List Offset) (st' : FState),
      processAdjs G t off ds ⟨fov, stack⟩ = some st' →
      (∀ d ∈ ds, (off, d) ∈ computeTable radius) →
      Sv G origin radius off (some t) →
      (off = Offset.zero ∨ G.lite t = true) →
      lookupKV fov off = some (some t) →
      FInv G origin radius fov stack →
      FInv G origin radius st'.fov st'.stack ∧
      (∀ k, containsKey fov k = true → containsKey st'.fov k = true) ∧
      (∀ k, containsKey st'.fov k = true → containsKey fov k = true ∨ k ∈ ds) ∧
      (∀ x ∈ stack, x ∈ st'.stack) ∧
      (∀ k w, lookupKV fov k = some w → lookupKV st'.fov k = some w) ∧
      (∀ d ∈ ds, ∃ nb, G.adj t (d.Sub off) = some nb ∧
        lookupKV st'.fov d = some (some nb) ∧
        (G.lite nb = true → d ∈ st'.stack)) := by
  intro ds
  induction ds with
  | nil =>
    intro fov stack st' h _ _ _ _ hinv
    have hst : st' = ⟨fov, stack⟩ := by
      have h2 : some (⟨fov, stack⟩ : FState) = some st' := h
      injection h2 with h2'
      exact h2'.symm
    subst hst
    exact ⟨hinv, fun k hk => hk, fun k hk => Or.inl hk, fun x hx => hx,
      fun k w hw => hw, fun d hd => absurd hd (List.not_mem_nil d)⟩
  | cons d ds ih =>
    intro fov stack st' h hds hsv hlite hoff hinv
    have hdm : (off, d) ∈ computeTable radius := hds d (List.mem_cons_self d ds)
    have hdnz : d ≠ Offset.zero := table_dst_ne_zero hdm
    have hoffd : off ≠ d := by
      intro hq
      have hc : d.Chebyshev = off.Chebyshev + 1 := (table_cheb hdm).1
      rw [hq] at hc
      omega
    cases hadj : G.adj t (d.Sub off) with
    | none =>
      exfalso
      simp only [processAdjs, hadj] at h
      exact Option.noConfusion h
    | some nb =>
      have hsvd : Sv G origin radius d (some nb) := by
        rw [← hadj]
        exact Sv.step hsv hlite hdm
      simp only [processAdjs, hadj] at h
      have hpres : ∀ o w, lookupKV fov o = some w →
          lookupKV (insertKV fov d (some nb)) o = some w :=
        insert_lookup_sv hinv.val hsvd
      have hval1 : ∀ o v, lookupKV (insertKV fov d (some nb)) o = some v →
          Sv G origin radius o v := by
        intro o v hv
        by_cases ho : o = d
        · subst ho
          rw [lookup_insert_self] at hv
          injection hv with hv2
          rw [← hv2]
          exact hsvd
        · rw [lookup_insert_ne _ _ _ _ ho] at hv
          exact hinv.val o v hv
      have hinv1 : FInv G origin radius (insertKV fov d (some nb))
          (if G.lite nb then d :: stack else stack) := by
        refine ⟨hval1, hpres _ _ hinv.zeroMem, ?_, ?_⟩
        · intro o ho
          have htail : o ∈ stack → o = Offset.zero ∨
              ∃ t0, lookupKV (insertKV fov d (some nb)) o = some (some t0) ∧
                G.lite t0 = true := by
            intro ho2
            rcases hinv.stackLite o ho2 with hz | ⟨t0, hl0, hlit0⟩
            · exact Or.inl hz
            · exact Or.inr ⟨t0, hpres _ _ hl0, hlit0⟩
          by_cases hl : G.lite nb = true
          · rw [if_pos hl] at ho
            rcases List.mem_cons.mp ho with ho | ho
            · subst ho
              exact Or.inr ⟨nb, lookup_insert_self _ _ _, hl⟩
            · exact htail ho
          · rw [if_neg hl] at ho
            exact htail ho
        · intro o v hv
          by_cases ho : o = d
          · subst ho
            exact Or.inr ⟨off, t, hdm, hpres _ _ hoff, hlite⟩
          · rw [lookup_insert_ne _ _ _ _ ho] at hv
            rcases hinv.par o v hv with hz | ⟨p, tp, hpm, hpl, hplite⟩
            · exact Or.inl hz
            · exact Or.inr ⟨p, tp, hpm, hpres _ _ hpl, hplite⟩
      obtain ⟨r1, r2, r3, r4, r5, r6⟩ := ih (insertKV fov d (some nb))
        (if G.lite nb then d :: stack else stack) st' h
        (fun d2 hd2 => hds d2 (List.mem_cons_of_mem d hd2)) hsv hlite
        (hpres _ _ hoff) hinv1
      refine ⟨r1, ?_, ?_, ?_, ?_, ?_⟩
      · intro k hk
        exact r2 k (contains_insert_of_contains hk)
      · intro k hk
        rcases r3 k hk with hk2 | hk2
        · rcases contains_insert_elim hk2 with hk3 | hk3
          · exact Or.inl hk3
          · exact Or.inr (by rw [hk3]; exact List.mem_cons_self d ds)
        · exact Or.inr (List.mem_cons_of_mem d hk2)
      · intro x hx
        apply r4
        by_cases hl : G.lite nb = true
        · rw [if_pos hl]
          exact List.mem_cons_of_mem d hx
        · rw [if_neg hl]
          exact hx
      · intro k w hw
        exact r5 k w (hpres k w hw)
      · intro d2 hd2
        rcases List.mem_cons.mp hd2 with hd2 | hd2
        · subst hd2
          refine ⟨nb, hadj, ?_, ?_⟩
          · exact r5 _ _ (lookup_insert_self fov d2 (some nb))
          · intro hl
            apply r4
            rw [if_pos hl]
            exact List.mem_cons_self d2 _
        · exact r6 d2 hd2

theorem mem_dsts {t : List Edge} {o d : Offset} : d ∈ dsts t o ↔ (o, d) ∈ t := by
  unfold dsts
  rw [List.mem_map]
  constructor
  · rintro ⟨e, he, hed⟩
    obtain ⟨hmem, hdec⟩ := List.mem_filter.mp he
    have h1 : e.1 = o := of_decide_eq_true hdec
    have h2 : e = (o, d) := by
      cases e
      simp_all
    rw [← h2]
    exact hmem
  · intro hm
    refine ⟨(o, d), ?_, rfl⟩
    exact List.mem_filter.mpr ⟨hm, by simp⟩

/-- Master specification of the flood loop: on a completed run the
invariant holds of the final map, keys only grow, and the destinations of
every offset that sits on the stack — or that ends up recorded transparent
without being recorded yet — are all present in the final map. -/
theorem floodAux_spec {G : TileGraph} {origin : Nat} {radius : Int} :
    ∀ (fuel : Nat) (st : FState) (m : FovMap),
      floodAux G (computeTable radius) fuel st = FOut.done m →
      FInv G origin radius st.fov st.stack →
      FInv G origin radius m [] ∧
      (∀ k, containsKey st.fov k = true → containsKey m k = true) ∧
      (∀ o, (o ∈ st.stack ∨ (∃ t, lookupKV m o = some (some t) ∧
          G.lite t = true ∧ lookupKV st.fov o = none)) →
        ∀ d, (o, d) ∈ computeTable radius → containsKey m d = true) := by
  intro fuel
  induction fuel with
  | zero =>
    intro st m h _
    exact absurd h (by simp [floodAux])
  | succ fuel ih =>
    intro st m h hinv
    rcases st with ⟨fov, stack⟩
    cases stack with
    | nil =>
      simp only [floodAux] at h
      injection h with hm
      subst hm
      refine ⟨⟨hinv.val, hinv.zeroMem, by simp, hinv.par⟩, fun k hk => hk, ?_⟩
      intro o ho d hd
      rcases ho with ho | ⟨t', hmo, _, hnone⟩
      · exact absurd ho (List.not_mem_nil o)
      · rw [hnone] at hmo
        exact Option.noConfusion hmo
    | cons off rest =>
      have hinv2 : FInv G origin radius fov rest :=
        ⟨hinv.val, hinv.zeroMem,
         fun o ho => hinv.stackLite o (List.mem_cons_of_mem _ ho), hinv.par⟩
      cases hds : dsts (computeTable radius) off with
      | nil =>
        simp only [floodAux, hds] at h
        obtain ⟨f1, f2, f3⟩ := ih ⟨fov, rest⟩ m h hinv2
        refine ⟨f1, f2, ?_⟩
        intro o ho d hd
        rcases ho with ho | ho
        · rcases List.mem_cons.mp ho with ho | ho
          · subst ho
            exfalso
            have hmem : d ∈ dsts (computeTable radius) o := mem_dsts.mpr hd
            rw [hds] at hmem
            exact absurd hmem (List.not_mem_nil d)
          · exact f3 o (Or.inl ho) d hd
        · exact f3 o (Or.inr ho) d hd
      | cons d0 ds0 =>
        cases hlk : lookupKV fov off with
        | none =>
          simp only [floodAux, hds, hlk] at h
          exact FOut.noConfusion h
        | some v =>
          cases v with
          | none =>
            simp only [floodAux, hds, hlk] at h
            exact FOut.noConfusion h
          | some t =>
            cases hpa : processAdjs G t off (d0 :: ds0) ⟨fov, rest⟩ with
            | none =>
              simp only [floodAux, hds, hlk, hpa] at h
              exact FOut.noConfusion h
            | some st' =>
              simp only [floodAux, hds, hlk, hpa] at h
              have hsv : Sv G origin radius off (some t) := hinv.val off (some t) hlk
              have hlite : off = Offset.zero ∨ G.lite t = true := by
                rcases hinv.stackLite off (List.mem_cons_self off rest) with
                  hz | ⟨t0, hl0, hlit0⟩
                · exact Or.inl hz
                · right
                  have ht0 : some (some t0) = some (some t) := by rw [← hl0, hlk]
                  injection ht0 with ht1
                  injection ht1 with ht2
                  rw [← ht2]
                  exact hlit0
              obtain ⟨p1, p2, p3, p4, p5, p6⟩ :=
                processAdjs_spec (d0 :: ds0) fov rest st' hpa
                  (fun d hd => mem_dsts.mp (by rw [hds]; exact hd)) hsv hlite hlk hinv2
              obtain ⟨f1, f2, f3⟩ := ih st' m h p1
              refine ⟨f1, fun k hk => f2 k (p2 k hk), ?_⟩
              intro o ho d hd
              rcases ho with ho | ho
              · rcases List.mem_cons.mp ho with ho | ho
                · subst ho
                  have hdd : d ∈ d0 :: ds0 := by
                    rw [← hds]
                    exact mem_dsts.mpr hd
                  obtain ⟨nb, hnb, hlook, hpush⟩ := p6 d hdd
                  have hck : containsKey st'.fov d = true := by
                    unfold containsKey
                    rw [hlook]
                    rfl
                  exact f2 d hck
                · exact f3 o (Or.inl (p4 o ho)) d hd
              · obtain ⟨t', hmo, hlit', hnone⟩ := ho
                by_cases hkey : containsKey st'.fov o = true
                · rcases p3 o hkey with hold | hnew
                  · exfalso
                    unfold containsKey at hold
                    rw [hnone] at hold
                    exact Bool.noConfusion hold
                  · obtain ⟨nb, hnb, hlook, hpush⟩ := p6 o hnew
                    have hsv1 : Sv G origin radius o (some nb) :=
                      p1.val o (some nb) hlook
                    have hsv2 : Sv G origin radius o (some t') := f1.val o (some t') hmo
                    have hnt : (some nb : Option Nat) = some t' := Sv_unique hsv1 hsv2
                    injection hnt with hnt'
                    subst hnt'
                    exact f3 o (Or.inl (hpush hlit')) d hd
                · have hn' : lookupKV st'.fov o = none := by
                    unfold containsKey at hkey
                    cases hl : lookupKV st'.fov o with
                    | none => rfl
                    | some w =>
                      rw [hl] at hkey
                      simp at hkey
                  exact f3 o (Or.inr ⟨t', hmo, hlit', hn'⟩) d hd

theorem lookup_singleton {α : Type} (k k' : Offset) (v : α) :
    lookupKV [(k, v)] k' = if k = k' then some v else none := rfl

/-- The seeded state of the flood satisfies the invariant. -/
theorem FInv_init (G : TileGraph) (origin : Nat) (radius : Int) :
    FInv G origin radius [(Offset.zero, some origin)] [Offset.zero] := by
  refine ⟨?_, ?_, ?_, ?_⟩
  · intro o v hv
    rw [lookup_singleton] at hv
    by_cases ho : Offset.zero = o
    · rw [if_pos ho] at hv
      injection hv with hv'
      rw [← ho, ← hv']
      exact Sv.zero
    · rw [if_neg ho] at hv
      exact Option.noConfusion hv
  · rw [lookup_singleton, if_pos rfl]
  · intro o ho
    rcases List.mem_cons.mp ho with ho | ho
    · exact Or.inl ho
    · exact absurd ho (List.not_mem_nil o)
  · intro o v hv
    rw [lookup_singleton] at hv
    by_cases ho : Offset.zero = o
    · exact Or.inl ho.symm
    · rw [if_neg ho] at hv
      exact Option.noConfusion hv

/-- Main property of a completed flood: the final map satisfies the
invariant, and conversely every chain-reachable value is recorded. -/
theorem flood_done_main {G : TileGraph} {origin : Nat} {radius : Int}
    {m : FovMap}
    (h : floodAux G (computeTable radius) (floodFuel radius)
      ⟨[(Offset.zero, some origin)], [Offset.zero]⟩ = FOut.done m) :
    FInv G origin radius m [] ∧
    (∀ o v, Sv G origin radius o v → lookupKV m o = some v) := by
  obtain ⟨f1, f2, f3⟩ := floodAux_spec _ _ _ h (FInv_init G origin radius)
  refine ⟨f1, ?_⟩
  intro o v hsv
  induction hsv with
  | zero => exact f1.zeroMem
  | step hp hl hm ihp =>
    rename_i p t o2
    have hchild : containsKey m o2 = true := by
      by_cases hz : p = Offset.zero
      · exact f3 p (Or.inl (by rw [hz]; exact List.mem_cons_self _ _)) o2 hm
      · rcases hl with hz' | hlit
        · exact absurd hz' hz
        · refine f3 p (Or.inr ⟨t, ihp, hlit, ?_⟩) o2 hm
          show lookupKV [(Offset.zero, some origin)] p = none
          rw [lookup_singleton, if_neg (fun hq => hz hq.symm)]
    unfold containsKey at hchild
    cases hw : lookupKV m o2 with
    | none =>
      rw [hw] at hchild
      exact Bool.noConfusion hchild
    | some w =>
      have hsw : Sv G origin radius o2 w := f1.val o2 w hw
      have hweq : w = G.adj t (o2.Sub p) := Sv_unique hsw (Sv.step hp hl hm)
      exact congrArg some hweq

/-! ### wallfix specifications -/

/-- Specification of the `+x` march: keys only grow, new keys are diagonal
patches beside the marched axis segment, and the entry at the origin
offset is untouched. -/
theorem wallfixPX_spec {G : TileGraph} :
    ∀ (fuel : Nat) (dx : Int) (fov m' : FovMap),
      wallfixPX G fuel dx fov = some m' →
      (∀ k, containsKey fov k = true → containsKey m' k = true) ∧
      (∀ k, containsKey m' k = true → containsKey fov k = true ∨
        ∃ j : Int, dx ≤ j ∧ j < dx + (fuel : Int) ∧
          (k = ⟨j, 1⟩ ∨ k = ⟨j, -1⟩)) ∧
      (∀ w, lookupKV fov Offset.zero = some w →
        lookupKV m' Offset.zero = some w) := by
  intro fuel
  induction fuel with
  | zero =>
    intro dx fov m' h
    have hm : fov = m' := by
      have h2 : some fov = some m' := h
      injection h2
    subst hm
    exact ⟨fun k hk => hk, fun k hk => Or.inl hk, fun w hw => hw⟩
  | succ fuel ih =>
    intro dx fov m' h
    by_cases hck : containsKey fov ⟨dx, 0⟩ = true
    · rw [wallfixPX, if_pos hck] at h
      cases hlk : lookupKV fov ⟨dx - 1, 0⟩ with
      | none =>
        rw [hlk] at h
        exact Option.noConfusion h
      | some v =>
        cases v with
        | none =>
          rw [hlk] at h
          exact Option.noConfusion h
        | some t =>
          rw [hlk] at h
          obtain ⟨r1, r2, r3⟩ := ih (dx + 1) _ m' h
          have hz1 : Offset.zero ≠ (⟨dx, 1⟩ : Offset) := by
            intro hq
            have := congrArg Offset.Y hq
            simp [Offset.zero] at this
          have hz2 : Offset.zero ≠ (⟨dx, -1⟩ : Offset) := by
            intro hq
            have := congrArg Offset.Y hq
            simp [Offset.zero] at this
          refine ⟨?_, ?_, ?_⟩
          · intro k hk
            exact r1 k (contains_insert_of_contains (contains_insert_of_contains hk))
          · intro k hk
            rcases r2 k hk with hk2 | ⟨j, hj1, hj2, hj3⟩
            · rcases contains_insert_elim hk2 with hk3 | hk3
              · rcases contains_insert_elim hk3 with hk4 | hk4
                · exact Or.inl hk4
                · exact Or.inr ⟨dx, le_refl dx, by push_cast; omega, Or.inl hk4⟩
              · exact Or.inr ⟨dx, le_refl dx, by push_cast; omega, Or.inr hk3⟩
            · exact Or.inr ⟨j, by omega, by push_cast at hj2 ⊢; omega, hj3⟩
          · intro w hw
            apply r3
            rw [lookup_insert_ne _ _ _ _ hz2, lookup_insert_ne _ _ _ _ hz1]
            exact hw
    · rw [wallfixPX, if_neg hck] at h
      have hm : fov = m' := by
        have h2 : some fov = some m' := h
        injection h2
      subst hm
      exact ⟨fun k hk => hk, fun k hk => Or.inl hk, fun w hw => hw⟩

/-- Specification of the `-x` march. -/
theorem wallfixMX_spec {G : TileGraph} :
    ∀ (fuel : Nat) (dx : Int) (fov m' : FovMap),
      wallfixMX G fuel dx fov = some m' →
      (∀ k, containsKey fov k = true → containsKey m' k = true) ∧
      (∀ k, containsKey m' k = true → containsKey fov k = true ∨
        ∃ j : Int, dx - (fuel : Int) < j ∧ j ≤ dx ∧
          (k = ⟨j, 1⟩ ∨ k = ⟨j, -1⟩)) ∧
      (∀ w, lookupKV fov Offset.zero = some w →
        lookupKV m' Offset.zero = some w) := by
  intro fuel
  induction fuel with
  | zero =>
    intro dx fov m' h
    have hm : fov = m' := by
      have h2 : some fov = some m' := h
      injection h2
    subst hm
    exact ⟨fun k hk => hk, fun k hk => Or.inl hk, fun w hw => hw⟩
  | succ fuel ih =>
    intro dx fov m' h
    by_cases hck : containsKey fov ⟨dx, 0⟩ = true
    · rw [wallfixMX, if_pos hck] at h
      cases hlk : lookupKV fov ⟨dx + 1, 0⟩ with
      | none =>
        rw [hlk] at h
        exact Option.noConfusion h
      | some v =>
        cases v with
        | none =>
          rw [hlk] at h
          exact Option.noConfusion h
        | some t =>
          rw [hlk] at h
          obtain ⟨r1, r2, r3⟩ := ih (dx - 1) _ m' h
          have hz1 : Offset.zero ≠ (⟨dx, 1⟩ : Offset) := by
            intro hq
            have := congrArg Offset.Y hq
            simp [Offset.zero] at this
          have hz2 : Offset.zero ≠ (⟨dx, -1⟩ : Offset) := by
            intro hq
            have := congrArg Offset.Y hq
            simp [Offset.zero] at this
          refine ⟨?_, ?_, ?_⟩
          · intro k hk
            exact r1 k (contains_insert_of_contains (contains_insert_of_contains hk))
          · intro k hk
            rcases r2 k hk with hk2 | ⟨j, hj1, hj2, hj3⟩
            · rcases contains_insert_elim hk2 with hk3 | hk3
              · rcases contains_insert_elim hk3 with hk4 | hk4
                · exact Or.inl hk4
                · exact Or.inr ⟨dx, by push_cast; omega, le_refl dx, Or.inl hk4⟩
              · exact Or.inr ⟨dx, by push_cast; omega, le_refl dx, Or.inr hk3⟩
            · exact Or.inr ⟨j, by push_cast at hj1 ⊢; omega, by omega, hj3⟩
          · intro w hw
            apply r3
            rw [lookup_insert_ne _ _ _ _ hz2, lookup_insert_ne _ _ _ _ hz1]
            exact hw
    · rw [wallfixMX, if_neg hck] at h
      have hm : fov = m' := by
        have h2 : some fov = some m' := h
        injection h2
      subst hm
      exact ⟨fun k hk => hk, fun k hk => Or.inl hk, fun w hw => hw⟩

/-- Specification of the `+y` march. -/
theorem wallfixPY_spec {G : TileGraph} :
    ∀ (fuel : Nat) (dy : Int) (fov m' : FovMap),
      wallfixPY G fuel dy fov = some m' →
      (∀ k, containsKey fov k = true → containsKey m' k = true) ∧
      (∀ k, containsKey m' k = true → containsKey fov k = true ∨
        ∃ j : Int, dy ≤ j ∧ j < dy + (fuel : Int) ∧
          (k = ⟨1, j⟩ ∨ k = ⟨-1, j⟩)) ∧
      (∀ w, lookupKV fov Offset.zero = some w →
        lookupKV m' Offset.zero = some w) := by
  intro fuel
  induction fuel with
  | zero =>
    intro dy fov m' h
    have hm : fov = m' := by
      have h2 : some fov = some m' := h
      injection h2
    subst hm
    exact ⟨fun k hk => hk, fun k hk => Or.inl hk, fun w hw => hw⟩
  | succ fuel ih =>
    intro dy fov m' h
    by_cases hck : containsKey fov ⟨0, dy⟩ = true
    · rw [wallfixPY, if_pos hck] at h
      cases hlk : lookupKV fov ⟨0, dy - 1⟩ with
      | none =>
        rw [hlk] at h
        exact Option.noConfusion h
      | some v =>
        cases v with
        | none =>
          rw [hlk] at h
          exact Option.noConfusion h
        | some t =>
          rw [hlk] at h
          obtain ⟨r1, r2, r3⟩ := ih (dy + 1) _ m' h
          have hz1 : Offset.zero ≠ (⟨1, dy⟩ : Offset) := by
            intro hq
            have := congrArg Offset.X hq
            simp [Offset.zero] at this
          have hz2 : Offset.zero ≠ (⟨-1, dy⟩ : Offset) := by
            intro hq
            have := congrArg Offset.X hq
            simp [Offset.zero] at this
          refine ⟨?_, ?_, ?_⟩
          · intro k hk
            exact r1 k (contains_insert_of_contains (contains_insert_of_contains hk))
          · intro k hk
            rcases r2 k hk with hk2 | ⟨j, hj1, hj2, hj3⟩
            · rcases contains_insert_elim hk2 with hk3 | hk3
              · rcases contains_insert_elim hk3 with hk4 | hk4
                · exact Or.inl hk4
                · exact Or.inr ⟨dy, le_refl dy, by push_cast; omega, Or.inl hk4⟩
              · exact Or.inr ⟨dy, le_refl dy, by push_cast; omega, Or.inr hk3⟩
            · exact Or.inr ⟨j, by omega, by push_cast at hj2 ⊢; omega, hj3⟩
          · intro w hw
            apply r3
            rw [lookup_insert_ne _ _ _ _ hz2, lookup_insert_ne _ _ _ _ hz1]
            exact hw
    · rw [wallfixPY, if_neg hck] at h
      have hm : fov = m' := by
        have h2 : some fov = some m' := h
        injection h2
      subst hm
      exact ⟨fun k hk => hk, fun k hk => Or.inl hk, fun w hw => hw⟩

/-- Specification of the `-y` march. -/
theorem wallfixMY_spec {G : TileGraph} :
    ∀ (fuel : Nat) (dy : Int) (fov m' : FovMap),
      wallfixMY G fuel dy fov = some m' →
      (∀ k, containsKey fov k = true → containsKey m' k = true) ∧
      (∀ k, containsKey m' k = true → containsKey fov k = true ∨
        ∃ j : Int, dy - (fuel : Int) < j ∧ j ≤ dy ∧
          (k = ⟨1, j⟩ ∨ k = ⟨-1, j⟩)) ∧
      (∀ w, lookupKV fov Offset.zero = some w →
        lookupKV m' Offset.zero = some w) := by
  intro fuel
  induction fuel with
  | zero =>
    intro dy fov m' h
    have hm : fov = m' := by
      have h2 : some fov = some m' := h
      injection h2
    subst hm
    exact ⟨fun k hk => hk, fun k hk => Or.inl hk, fun w hw => hw⟩
  | succ fuel ih =>
    intro dy fov m' h
    by_cases hck : containsKey fov ⟨0, dy⟩ = true
    · rw [wallfixMY, if_pos hck] at h
      cases hlk : lookupKV fov ⟨0, dy + 1⟩ with
      | none =>
        rw [hlk] at h
        exact Option.noConfusion h
      | some v =>
        cases v with
        | none =>
          rw [hlk] at h
          exact Option.noConfusion h
        | some t =>
          rw [hlk] at h
          obtain ⟨r1, r2, r3⟩ := ih (dy - 1) _ m' h
          have hz1 : Offset.zero ≠ (⟨1, dy⟩ : Offset) := by
            intro hq
            have := congrArg Offset.X hq
            simp [Offset.zero] at this
          have hz2 : Offset.zero ≠ (⟨-1, dy⟩ : Offset) := by
            intro hq
            have := congrArg Offset.X hq
            simp [Offset.zero] at this
          refine ⟨?_, ?_, ?_⟩
          · intro k hk
            exact r1 k (contains_insert_of_contains (contains_insert_of_contains hk))
          · intro k hk
            rcases r2 k hk with hk2 | ⟨j, hj1, hj2, hj3⟩
            · rcases contains_insert_elim hk2 with hk3 | hk3
              · rcases contains_insert_elim hk3 with hk4 | hk4
                · exact Or.inl hk4
                · exact Or.inr ⟨dy, by push_cast; omega, le_refl dy, Or.inl hk4⟩
              · exact Or.inr ⟨dy, by push_cast; omega, le_refl dy, Or.inr hk3⟩
            · exact Or.inr ⟨j, by push_cast at hj1 ⊢; omega, by omega, hj3⟩
          · intro w hw
            apply r3
            rw [lookup_insert_ne _ _ _ _ hz2, lookup_insert_ne _ _ _ _ hz1]
            exact hw
    · rw [wallfixMY, if_neg hck] at h
      have hm : fov = m' := by
        have h2 : some fov = some m' := h
        injection h2
      subst hm
      exact ⟨fun k hk => hk, fun k hk => Or.inl hk, fun w hw => hw⟩

/-- Combined specification of `wallfix`: keys only grow; every added key
is a diagonal patch beside one of the four cardinal axes, with Chebyshev
norm at most `max radius 1`; the origin entry is untouched. -/
theorem wallfix_spec {G : TileGraph} {radius : Int} {fov m' : FovMap}
    (h : wallfix G fov radius = some m') :
    (∀ k, containsKey fov k = true → containsKey m' k = true) ∧
    (∀ k, containsKey m' k = true → containsKey fov k = true ∨
      ((k.Y = 1 ∨ k.Y = -1 ∨ k.X = 1 ∨ k.X = -1) ∧
        k.Chebyshev ≤ max radius 1)) ∧
    (∀ w, lookupKV fov Offset.zero = some w →
      lookupKV m' Offset.zero = some w) := by
  unfold wallfix at h
  cases h1 : wallfixPX G radius.toNat 1 fov with
  | none => rw [h1] at h; exact Option.noConfusion h
  | some fov1 =>
    rw [h1] at h
    simp only [Option.some_bind] at h
    cases h2 : wallfixMX G radius.toNat (-1) fov1 with
    | none => rw [h2] at h; exact Option.noConfusion h
    | some fov2 =>
      rw [h2] at h
      simp only [Option.some_bind] at h
      cases h3 : wallfixPY G radius.toNat 1 fov2 with
      | none => rw [h3] at h; exact Option.noConfusion h
      | some fov3 =>
        rw [h3] at h
        simp only [Option.some_bind] at h
        obtain ⟨a1, a2, a3⟩ := wallfixPX_spec radius.toNat 1 fov fov1 h1
        obtain ⟨b1, b2, b3⟩ := wallfixMX_spec radius.toNat (-1) fov1 fov2 h2
        obtain ⟨c1, c2, c3⟩ := wallfixPY_spec radius.toNat 1 fov2 fov3 h3
        obtain ⟨d1, d2, d3⟩ := wallfixMY_spec radius.toNat (-1) fov3 m' h
        have hpatch : ∀ (j : Int) (k : Offset), 1 ≤ j → j ≤ radius →
            (k = ⟨j, 1⟩ ∨ k = ⟨j, -1⟩ ∨ k = ⟨-j, 1⟩ ∨ k = ⟨-j, -1⟩ ∨
             k = ⟨1, j⟩ ∨ k = ⟨-1, j⟩ ∨ k = ⟨1, -j⟩ ∨ k = ⟨-1, -j⟩) →
            (k.Y = 1 ∨ k.Y = -1 ∨ k.X = 1 ∨ k.X = -1) ∧
              k.Chebyshev ≤ max radius 1 := by
          intro j k hj1 hj2 hk
          have hch : ∀ a b : Int, (⟨a, b⟩ : Offset).Chebyshev =
              max ((a.natAbs : Int)) ((b.natAbs : Int)) := fun a b => cheb_natAbs _
          rcases hk with hk | hk | hk | hk | hk | hk | hk | hk <;> subst hk <;>
            refine ⟨by simp, ?_⟩ <;>
            · rw [hch]
              have hm1 : (1 : Int) ≤ max radius 1 := le_max_right radius 1
              have hm2 : radius ≤ max radius 1 := le_max_left radius 1
              rw [max_le_iff]
              constructor <;> omega
        refine ⟨?_, ?_, ?_⟩
        · intro k hk
          exact d1 k (c1 k (b1 k (a1 k hk)))
        · intro k hk
          rcases d2 k hk with hk2 | ⟨j, hj1, hj2, hj3⟩
          · rcases c2 k hk2 with hk3 | ⟨j, hj1, hj2, hj3⟩
            · rcases b2 k hk3 with hk4 | ⟨j, hj1, hj2, hj3⟩
              · rcases a2 k hk4 with hk5 | ⟨j, hj1, hj2, hj3⟩
                · exact Or.inl hk5
                · refine Or.inr (hpatch j k hj1 (by omega) ?_)
                  rcases hj3 with hj3 | hj3 <;> subst hj3
                  · exact Or.inl rfl
                  · exact Or.inr (Or.inl rfl)
              · refine Or.inr (hpatch (-j) k (by omega) (by omega) ?_)
                rcases hj3 with hj3 | hj3 <;> subst hj3
                · refine Or.inr (Or.inr (Or.inl ?_))
                  congr 1
                  omega
                · refine Or.inr (Or.inr (Or.inr (Or.inl ?_)))
                  congr 1
                  omega
            · refine Or.inr (hpatch j k hj1 (by omega) ?_)
              rcases hj3 with hj3 | hj3 <;> subst hj3
              · exact Or.inr (Or.inr (Or.inr (Or.inr (Or.inl rfl))))
              · exact Or.inr (Or.inr (Or.inr (Or.inr (Or.inr (Or.inl rfl)))))
          · refine Or.inr (hpatch (-j) k (by omega) (by omega) ?_)
            rcases hj3 with hj3 | hj3 <;> subst hj3
            · refine Or.inr (Or.inr (Or.inr (Or.inr (Or.inr (Or.inr (Or.inl ?_))))))
              congr 1
              omega
            · refine Or.inr (Or.inr (Or.inr (Or.inr (Or.inr (Or.inr (Or.inr ?_))))))
              congr 1
              omega
        · intro w hw
          exact d3 w (c3 w (b3 w (a3 w hw)))

/-! ### Grid-coherent tile graphs

The claims about LoS/FoV consistency quantify over tiles "in the same tile
graph".  A `GridWorld` makes that precise: tiles live at unique positions
(`cells`), and the adjacency links are exactly position lookups, as in any
actual map built for this library. -/

/-- A geometrically coherent tile graph. -/
structure GridWorld where
  cells : Offset → Option Nat
  graph : TileGraph
  coh_adj : ∀ t d, graph.adj t d = cells ((graph.toff t).Add d)
  coh_off : ∀ p t, cells p = some t → graph.toff t = p

theorem GridWorld.cells_toff (W : GridWorld) {p : Offset} {t : Nat}
    (h : W.cells p = some t) : W.cells (W.graph.toff t) = some t := by
  rw [W.coh_off p t h]
  exact h

theorem Offset.add_zero_off (o : Offset) : o.Add Offset.zero = o := by
  cases o
  simp [Offset.Add, Offset.zero]

theorem Offset.sub_zero_off (o : Offset) : o.Sub Offset.zero = o := by
  cases o
  simp [Offset.Sub, Offset.zero]

theorem Offset.add_sub_cancel' (a b : Offset) : a.Add (b.Sub a) = b := by
  cases a
  cases b
  simp [Offset.Add, Offset.Sub]

theorem Offset.add_sub_chain (base p o : Offset) :
    (base.Add p).Add (o.Sub p) = base.Add o := by
  cases base
  cases p
  cases o
  simp only [Offset.Add, Offset.Sub, Offset.mk.injEq]
  constructor <;> ring

theorem Offset.add_right_cancel_zero {a c : Offset} (h : a.Add c = a) :
    c = Offset.zero := by
  cases a
  cases c
  simp only [Offset.Add, Offset.mk.injEq, Offset.zero] at h ⊢
  obtain ⟨h1, h2⟩ := h
  constructor <;> omega

theorem Offset.add_mk_mk (a : Offset) (x1 y1 x2 y2 : Int) :
    (a.Add ⟨x1, y1⟩).Add ⟨x2, y2⟩ = a.Add ⟨x1 + x2, y1 + y2⟩ := by
  cases a
  simp only [Offset.Add, Offset.mk.injEq]
  constructor <;> ring

/-- In a coherent world, every chain-resolved value is the cell content at
the chain's endpoint. -/
theorem grid_Sv_val (W : GridWorld) {origin : Nat} {radius : Int}
    {o : Offset} {v : Option Nat}
    (ho : W.cells (W.graph.toff origin) = some origin)
    (h : Sv W.graph origin radius o v) :
    v = W.cells ((W.graph.toff origin).Add o) := by
  induction h with
  | zero =>
    rw [Offset.add_zero_off]
    exact ho.symm
  | step hp hl hm ih =>
    rename_i p t o2
    have hcell : W.cells ((W.graph.toff origin).Add p) = some t := ih.symm
    have htoff : W.graph.toff t = (W.graph.toff origin).Add p :=
      W.coh_off _ _ hcell
    rw [W.coh_adj, htoff, Offset.add_sub_chain]

/-- Grid preservation through the `+x` march: all recorded values remain
cell contents at their keys. -/
theorem wallfixPX_grid (W : GridWorld) (base : Offset) :
    ∀ (fuel : Nat) (dx : Int) (fov m' : FovMap),
      wallfixPX W.graph fuel dx fov = some m' →
      (∀ k v, lookupKV fov k = some v → v = W.cells (base.Add k)) →
      (∀ k v, lookupKV m' k = some v → v = W.cells (base.Add k)) := by
  intro fuel
  induction fuel with
  | zero =>
    intro dx fov m' h hfov
    have hm : fov = m' := by
      have h2 : some fov = some m' := h
      injection h2
    subst hm
    exact hfov
  | succ fuel ih =>
    intro dx fov m' h hfov
    by_cases hck : containsKey fov ⟨dx, 0⟩ = true
    · rw [wallfixPX, if_pos hck] at h
      cases hlk : lookupKV fov ⟨dx - 1, 0⟩ with
      | none =>
        rw [hlk] at h
        exact Option.noConfusion h
      | some v =>
        cases v with
        | none =>
          rw [hlk] at h
          exact Option.noConfusion h
        | some t =>
          rw [hlk] at h
          refine ih (dx + 1) _ m' h ?_
          have hcell : W.cells (base.Add ⟨dx - 1, 0⟩) = some t :=
            (hfov _ _ hlk).symm
          have htoff : W.graph.toff t = base.Add ⟨dx - 1, 0⟩ :=
            W.coh_off _ _ hcell
          have hv1 : W.graph.adj t ⟨1, 1⟩ = W.cells (base.Add ⟨dx, 1⟩) := by
            rw [W.coh_adj, htoff, Offset.add_mk_mk]
            norm_num
          have hv2 : W.graph.adj t ⟨1, -1⟩ = W.cells (base.Add ⟨dx, -1⟩) := by
            rw [W.coh_adj, htoff, Offset.add_mk_mk]
            norm_num
          intro k v hv
          by_cases hk2 : k = ⟨dx, -1⟩
          · subst hk2
            rw [lookup_insert_self] at hv
            injection hv with hv'
            rw [← hv']
            exact hv2
          · rw [lookup_insert_ne _ _ _ _ hk2] at hv
            by_cases hk1 : k = ⟨dx, 1⟩
            · subst hk1
              rw [lookup_insert_self] at hv
              injection hv with hv'
              rw [← hv']
              exact hv1
            · rw [lookup_insert_ne _ _ _ _ hk1] at hv
              exact hfov k v hv
    · rw [wallfixPX, if_neg hck] at h
      have hm : fov = m' := by
        have h2 : some fov = some m' := h
        injection h2
      subst hm
      exact hfov

/-- Grid preservation through the `-x` march. -/
theorem wallfixMX_grid (W : GridWorld) (base : Offset) :
    ∀ (fuel : Nat) (dx : Int) (fov m' : FovMap),
      wallfixMX W.graph fuel dx fov = some m' →
      (∀ k v, lookupKV fov k = some v → v = W.cells (base.Add k)) →
      (∀ k v, lookupKV m' k = some v → v = W.cells (base.Add k)) := by
  intro fuel
  induction fuel with
  | zero =>
    intro dx fov m' h hfov
    have hm : fov = m' := by
      have h2 : some fov = some m' := h
      injection h2
    subst hm
    exact hfov
  | succ fuel ih =>
    intro dx fov m' h hfov
    by_cases hck : containsKey fov ⟨dx, 0⟩ = true
    · rw [wallfixMX, if_pos hck] at h
      cases hlk : lookupKV fov ⟨dx + 1, 0⟩ with
      | none =>
        rw [hlk] at h
        exact Option.noConfusion h
      | some v =>
        cases v with
        | none =>
          rw [hlk] at h
          exact Option.noConfusion h
        | some t =>
          rw [hlk] at h
          refine ih (dx - 1) _ m' h ?_
          have hcell : W.cells (base.Add ⟨dx + 1, 0⟩) = some t :=
            (hfov _ _ hlk).symm
          have htoff : W.graph.toff t = base.Add ⟨dx + 1, 0⟩ :=
            W.coh_off _ _ hcell
          have hv1 : W.graph.adj t ⟨-1, 1⟩ = W.cells (base.Add ⟨dx, 1⟩) := by
            rw [W.coh_adj, htoff, Offset.add_mk_mk]
            norm_num
          have hv2 : W.graph.adj t ⟨-1, -1⟩ = W.cells (base.Add ⟨dx, -1⟩) := by
            rw [W.coh_adj, htoff, Offset.add_mk_mk]
            norm_num
          intro k v hv
          by_cases hk2 : k = ⟨dx, -1⟩
          · subst hk2
            rw [lookup_insert_self] at hv
            injection hv with hv'
            rw [← hv']
            exact hv2
          · rw [lookup_insert_ne _ _ _ _ hk2] at hv
            by_cases hk1 : k = ⟨dx, 1⟩
            · subst hk1
              rw [lookup_insert_self] at hv
              injection hv with hv'
              rw [← hv']
              exact hv1
            · rw [lookup_insert_ne _ _ _ _ hk1] at hv
              exact hfov k v hv
    · rw [wallfixMX, if_neg hck] at h
      have hm : fov = m' := by
        have h2 : some fov = some m' := h
        injection h2
      subst hm
      exact hfov

/-- Grid preservation through the `+y` march. -/
theorem wallfixPY_grid (W : GridWorld) (base : Offset) :
    ∀ (fuel : Nat) (dy : Int) (fov m' : FovMap),
      wallfixPY W.graph fuel dy fov = some m' →
      (∀ k v, lookupKV fov k = some v → v = W.cells (base.Add k)) →
      (∀ k v, lookupKV m' k = some v → v = W.cells (base.Add k)) := by
  intro fuel
  induction fuel with
  | zero =>
    intro dy fov m' h hfov
    have hm : fov = m' := by
      have h2 : some fov = some m' := h
      injection h2
    subst hm
    exact hfov
  | succ fuel ih =>
    intro dy fov m' h hfov
    by_cases hck : containsKey fov ⟨0, dy⟩ = true
    · rw [wallfixPY, if_pos hck] at h
      cases hlk : lookupKV fov ⟨0, dy - 1⟩ with
      | none =>
        rw [hlk] at h
        exact Option.noConfusion h
      | some v =>
        cases v with
        | none =>
          rw [hlk] at h
          exact Option.noConfusion h
        | some t =>
          rw [hlk] at h
          refine ih (dy + 1) _ m' h ?_
          have hcell : W.cells (base.Add ⟨0, dy - 1⟩) = some t :=
            (hfov _ _ hlk).symm
          have htoff : W.graph.toff t = base.Add ⟨0, dy - 1⟩ :=
            W.coh_off _ _ hcell
          have hv1 : W.graph.adj t ⟨1, 1⟩ = W.cells (base.Add ⟨1, dy⟩) := by
            rw [W.coh_adj, htoff, Offset.add_mk_mk]
            norm_num
          have hv2 : W.graph.adj t ⟨-1, 1⟩ = W.cells (base.Add ⟨-1, dy⟩) := by
            rw [W.coh_adj, htoff, Offset.add_mk_mk]
            norm_num
          intro k v hv
          by_cases hk2 : k = ⟨-1, dy⟩
          · subst hk2
            rw [lookup_insert_self] at hv
            injection hv with hv'
            rw [← hv']
            exact hv2
          · rw [lookup_insert_ne _ _ _ _ hk2] at hv
            by_cases hk1 : k = ⟨1, dy⟩
            · subst hk1
              rw [lookup_insert_self] at hv
              injection hv with hv'
              rw [← hv']
              exact hv1
            · rw [lookup_insert_ne _ _ _ _ hk1] at hv
              exact hfov k v hv
    · rw [wallfixPY, if_neg hck] at h
      have hm : fov = m' := by
        have h2 : some fov = some m' := h
        injection h2
      subst hm
      exact hfov

/-- Grid preservation through the `-y` march. -/
theorem wallfixMY_grid (W : GridWorld) (base : Offset) :
    ∀ (fuel : Nat) (dy : Int) (fov m' : FovMap),
      wallfixMY W.graph fuel dy fov = some m' →
      (∀ k v, lookupKV fov k = some v → v = W.cells (base.Add k)) →
      (∀ k v, lookupKV m' k = some v → v = W.cells (base.Add k)) := by
  intro fuel
  induction fuel with
  | zero =>
    intro dy fov m' h hfov
    have hm : fov = m' := by
      have h2 : some fov = some m' := h
      injection h2
    subst hm
    exact hfov
  | succ fuel ih =>
    intro dy fov m' h hfov
    by_cases hck : containsKey fov ⟨0, dy⟩ = true
    · rw [wallfixMY, if_pos hck] at h
      cases hlk : lookupKV fov ⟨0, dy + 1⟩ with
      | none =>
        rw [hlk] at h
        exact Option.noConfusion h
      | some v =>
        cases v with
        | none =>
          rw [hlk] at h
          exact Option.noConfusion h
        | some t =>
          rw [hlk] at h
          refine ih (dy - 1) _ m' h ?_
          have hcell : W.cells (base.Add ⟨0, dy + 1⟩) = some t :=
            (hfov _ _ hlk).symm
          have htoff : W.graph.toff t = base.Add ⟨0, dy + 1⟩ :=
            W.coh_off _ _ hcell
          have hv1 : W.graph.adj t ⟨1, -1⟩ = W.cells (base.Add ⟨1, dy⟩) := by
            rw [W.coh_adj, htoff, Offset.add_mk_mk]
            norm_num
          have hv2 : W.graph.adj t ⟨-1, -1⟩ = W.cells (base.Add ⟨-1, dy⟩) := by
            rw [W.coh_adj, htoff, Offset.add_mk_mk]
            norm_num
          intro k v hv
          by_cases hk2 : k = ⟨-1, dy⟩
          · subst hk2
            rw [lookup_insert_self] at hv
            injection hv with hv'
            rw [← hv']
            exact hv2
          · rw [lookup_insert_ne _ _ _ _ hk2] at hv
            by_cases hk1 : k = ⟨1, dy⟩
            · subst hk1
              rw [lookup_insert_self] at hv
              injection hv with hv'
              rw [← hv']
              exact hv1
            · rw [lookup_insert_ne _ _ _ _ hk1] at hv
              exact hfov k v hv
    · rw [wallfixMY, if_neg hck] at h
      have hm : fov = m' := by
        have h2 : some fov = some m' := h
        injection h2
      subst hm
      exact hfov

/-- Grid preservation through the whole corrector. -/
theorem wallfix_grid (W : GridWorld) (base : Offset) {radius : Int}
    {fov m' : FovMap} (h : wallfix W.graph fov radius = some m')
    (hfov : ∀ k v, lookupKV fov k = some v → v = W.cells (base.Add k)) :
    ∀ k v, lookupKV m' k = some v → v = W.cells (base.Add k) := by
  unfold wallfix at h
  cases h1 : wallfixPX W.graph radius.toNat 1 fov with
  | none => rw [h1] at h; exact Option.noConfusion h
  | some fov1 =>
    rw [h1] at h
    simp only [Option.some_bind] at h
    cases h2 : wallfixMX W.graph radius.toNat (-1) fov1 with
    | none => rw [h2] at h; exact Option.noConfusion h
    | some fov2 =>
      rw [h2] at h
      simp only [Option.some_bind] at h
      cases h3 : wallfixPY W.graph radius.toNat 1 fov2 with
      | none => rw [h3] at h; exact Option.noConfusion h
      | some fov3 =>
        rw [h3] at h
        simp only [Option.some_bind] at h
        exact wallfixMY_grid W base radius.toNat (-1) fov3 m' h
          (wallfixPY_grid W base radius.toNat 1 fov2 fov3 h3
            (wallfixMX_grid W base radius.toNat (-1) fov1 fov2 h2
              (wallfixPX_grid W base radius.toNat 1 fov fov1 h1 hfov)))

/-- A successful LoS walk starts at the origin tile or at a transparent
tile. -/
theorem losAux_res_true_lite {G : TileGraph} {rt : List (Offset × Offset)}
    {origin : Nat} {fuel : Nat} {g : Nat} {c : Offset}
    (h : losAux G rt origin fuel g c = LosOut.res true) :
    g = origin ∨ G.lite g = true := by
  cases fuel with
  | zero => exact absurd h (by simp [losAux])
  | succ fuel =>
    by_cases hg : g = origin
    · exact Or.inl hg
    · right
      by_cases hl : G.lite g = false
      · exfalso
        rw [losAux, if_neg hg, if_pos hl] at h
        have h2 : true = false := by
          have h3 : LosOut.res false = LosOut.res true := h
          injection h3 with h4
          exact h4.symm
        exact Bool.noConfusion h2
      · cases hb : G.lite g with
        | true => rfl
        | false => exact absurd hb hl

/-- Extraction of a successful LoS walk in a coherent world: the walked
chain is the table-predecessor chain, every tile on it is transparent (or
the origin), so the goal offset is chain-reachable with the goal tile as
its value. -/
theorem losAux_true_Sv (W : GridWorld) {origin : Nat} {radiusR : Int}
    (horg : W.cells (W.graph.toff origin) = some origin) :
    ∀ (fuel : Nat) (g : Nat) (curr : Offset) (c0 : Int),
      losAux W.graph (computeReverseTable c0) origin fuel g curr =
        LosOut.res true →
      W.cells ((W.graph.toff origin).Add curr) = some g →
      curr.Chebyshev ≤ c0 → c0 ≤ radiusR →
      Sv W.graph origin radiusR curr (some g) := by
  intro fuel
  induction fuel with
  | zero =>
    intro g curr c0 h _ _ _
    exact absurd h (by simp [losAux])
  | succ fuel ih =>
    intro g curr c0 h hcell hc1 hc2
    by_cases hg : g = origin
    · have hoff : W.graph.toff g = (W.graph.toff origin).Add curr :=
        W.coh_off _ _ hcell
      rw [hg] at hoff
      have hz : curr = Offset.zero := Offset.add_right_cancel_zero hoff.symm
      rw [hg, hz]
      exact Sv.zero
    · have hlite : W.graph.lite g = true := by
        rcases losAux_res_true_lite h with h' | h'
        · exact absurd h' hg
        · exact h'
      have hlite' : ¬ W.graph.lite g = false := by
        rw [hlite]
        exact Bool.noConfusion
      rw [losAux, if_neg hg, if_neg hlite'] at h
      have hcz : curr ≠ Offset.zero := by
        intro hq
        subst hq
        rw [Offset.add_zero_off] at hcell
        exact hg (by
          have := W.coh_off _ _ hcell
          have h2 : W.cells (W.graph.toff origin) = some g := hcell
          rw [horg] at h2
          injection h2 with h3
          exact h3.symm)
      have hch1 : 1 ≤ curr.Chebyshev := by
        have h0 := curr.chebyshev_nonneg
        have hne : curr.Chebyshev ≠ 0 := fun hq => hcz (curr.chebyshev_zero_iff.mp hq)
        omega
      obtain ⟨p, hp⟩ := table_coverage hch1 hc1
      have hlk : lookupKV (computeReverseTable c0) curr = some p :=
        rev_lookup_iff.mpr hp
      rw [hlk] at h
      simp only [Option.getD_some] at h
      have hgcell : W.graph.toff g = (W.graph.toff origin).Add curr :=
        W.coh_off _ _ hcell
      cases hadj : W.graph.adj g (p.Sub curr) with
      | none =>
        rw [hadj] at h
        exact absurd h (by simp)
      | some g' =>
        rw [hadj] at h
        have hcell' : W.cells ((W.graph.toff origin).Add p) = some g' := by
          rw [W.coh_adj, hgcell, Offset.add_sub_chain] at hadj
          exact hadj
        have hchp : p.Chebyshev = curr.Chebyshev - 1 := by
          have := (table_cheb hp).1
          have h2 : curr.Chebyshev = p.Chebyshev + 1 := this
          omega
        have hsvp : Sv W.graph origin radiusR p (some g') :=
          ih g' p c0 h hcell' (by omega) hc2
        have hstep : Sv W.graph origin radiusR curr
            (W.graph.adj g' (curr.Sub p)) := by
          refine Sv.step hsvp ?_ (table_mono hc2 hp)
          by_cases hp0 : p = Offset.zero
          · exact Or.inl hp0
          · right
            rcases losAux_res_true_lite h with h' | h'
            · exfalso
              rw [h'] at hcell'
              have htoff2 : W.graph.toff origin = (W.graph.toff origin).Add p :=
                W.coh_off _ _ hcell'
              exact hp0 (Offset.add_right_cancel_zero htoff2.symm)
            · exact h'
        have hval : W.graph.adj g' (curr.Sub p) = some g := by
          have htoff' : W.graph.toff g' = (W.graph.toff origin).Add p :=
            W.coh_off _ _ hcell'
          rw [W.coh_adj, htoff', Offset.add_sub_chain]
          exact hcell
        rw [← hval]
        exact hstep

/-- A completed `FoV` run decomposes into a completed flood followed by a
completed corrector pass. -/
theorem FoV_done_elim {G : TileGraph} {origin : Nat} {radius : Int}
    {m' : FovMap} (h : FoV G origin radius = FOut.done m') :
    ∃ m, floodAux G (computeTable radius) (floodFuel radius)
        ⟨[(Offset.zero, some origin)], [Offset.zero]⟩ = FOut.done m ∧
      wallfix G m radius = some m' := by
  unfold FoV at h
  cases hf : floodAux G (computeTable radius) (floodFuel radius)
      ⟨[(Offset.zero, some origin)], [Offset.zero]⟩ with
  | panicked =>
    rw [hf] at h
    exact FOut.noConfusion h
  | fuelOut =>
    rw [hf] at h
    exact FOut.noConfusion h
  | done m =>
    rw [hf] at h
    have h2 : (match wallfix G m radius with
        | some m2 => FOut.done m2
        | none => FOut.panicked) = FOut.done m' := h
    cases hw : wallfix G m radius with
    | none =>
      rw [hw] at h2
      exact FOut.noConfusion h2
    | some m2 =>
      rw [hw] at h2
      have h3 : FOut.done m2 = FOut.done m' := h2
      injection h3 with h4
      rw [h4] at hw
      exact ⟨m, rfl, hw⟩

/-- C3 (amended): in a grid-coherent tile graph, whenever `LoS(a, b)`
returns true, the Chebyshev distance of `b - a` is at most `r`, and
`FoV(a, r)` completes without panicking, the returned mapping contains
the offset `b - a` bound to the tile `b`.  (As stated, the claim fails —
see the counterexample — because `FoV` can panic even when `LoS` holds.) -/
theorem C3_los_fov (W : GridWorld) (a b : Nat) (radius : Int) (m' : FovMap)
    (hA : W.cells (W.graph.toff a) = some a)
    (hB : W.cells (W.graph.toff b) = some b)
    (hlos : LoS W.graph a b = LosOut.res true)
    (hcheb : ((W.graph.toff b).Sub (W.graph.toff a)).Chebyshev ≤ radius)
    (hfov : FoV W.graph a radius = FOut.done m') :
    lookupKV m' ((W.graph.toff b).Sub (W.graph.toff a)) = some (some b) := by
  set curr := (W.graph.toff b).Sub (W.graph.toff a) with hcurr
  have hlos' : losAux W.graph (computeReverseTable curr.Chebyshev) a
      (curr.Chebyshev.toNat + 2) b curr = LosOut.res true := hlos
  have hcellb : W.cells ((W.graph.toff a).Add curr) = some b := by
    rw [hcurr, Offset.add_sub_cancel']
    exact hB
  have hsv : Sv W.graph a radius curr (some b) :=
    losAux_true_Sv W hA (curr.Chebyshev.toNat + 2) b curr curr.Chebyshev
      hlos' hcellb (le_refl _) hcheb
  obtain ⟨m, hfl, hwf⟩ := FoV_done_elim hfov
  obtain ⟨f1, fpos⟩ := flood_done_main hfl
  have hmval : lookupKV m curr = some (some b) := fpos curr (some b) hsv
  have hgridm : ∀ k v, lookupKV m k = some v →
      v = W.cells ((W.graph.toff a).Add k) :=
    fun k v hv => grid_Sv_val W hA (f1.val k v hv)
  have hgridm' : ∀ k v, lookupKV m' k = some v →
      v = W.cells ((W.graph.toff a).Add k) :=
    wallfix_grid W (W.graph.toff a) hwf hgridm
  have hkey : containsKey m' curr = true := by
    refine (wallfix_spec hwf).1 curr ?_
    unfold containsKey
    rw [hmval]
    rfl
  unfold containsKey at hkey
  cases hlk : lookupKV m' curr with
  | none =>
    rw [hlk] at hkey
    exact Bool.noConfusion hkey
  | some w =>
    have hw : w = W.cells ((W.graph.toff a).Add curr) := hgridm' curr w hlk
    rw [hw, hcellb]

/-! ### Concrete test worlds -/

/-- Cells of a fully transparent 3-by-3 grid centred at the origin
(row-major identifiers; the centre tile is 4). -/
def g3cells (p : Offset) : Option Nat :=
  if -1 ≤ p.X ∧ p.X ≤ 1 ∧ -1 ≤ p.Y ∧ p.Y ≤ 1 then
    some ((p.X + 1) + 3 * (p.Y + 1)).toNat
  else none

/-- Position of a 3-by-3 grid tile. -/
def g3toff (t : Nat) : Offset := ⟨-1 + (t : Int) % 3, -1 + (t : Int) / 3⟩

theorem g3_coh_off : ∀ p t, g3cells p = some t → g3toff t = p := by
  intro p t h
  cases p with
  | mk px py =>
    unfold g3cells at h
    split at h
    · rename_i hbox
      injection h with h'
      unfold g3toff
      simp only [Offset.mk.injEq]
      obtain ⟨h1, h2, h3, h4⟩ := hbox
      dsimp only at h1 h2 h3 h4 h'
      constructor <;> omega
    · exact Option.noConfusion h

/-- The fully transparent 3-by-3 grid world. -/
def g3World : GridWorld :=
  ⟨g3cells, ⟨fun t d => g3cells ((g3toff t).Add d), fun _ => true, g3toff⟩,
   fun _ _ => rfl, g3_coh_off⟩

/-- Its tile graph. -/
def g3 : TileGraph := g3World.graph

/-- The 3-by-3 grid with a non-transparent centre tile. -/
def g3o : TileGraph :=
  ⟨fun t d => g3cells ((g3toff t).Add d), fun t => decide (t ≠ 4), g3toff⟩

/-- Cells of the 5-tile corridor scenario: a 7-by-3 box (walls everywhere),
with corridor floor at `y = 0`, `0 ≤ x ≤ 4`.  Tile identifiers are
row-major; the corridor end `(0,0)` is 8 and the middle corridor tile
`(2,0)` is 10. -/
def corrCells (p : Offset) : Option Nat :=
  if -1 ≤ p.X ∧ p.X ≤ 5 ∧ -1 ≤ p.Y ∧ p.Y ≤ 1 then
    some ((p.X + 1) + 7 * (p.Y + 1)).toNat
  else none

/-- Position of a corridor tile. -/
def corrToff (t : Nat) : Offset := ⟨-1 + (t : Int) % 7, -1 + (t : Int) / 7⟩

/-- Transparency of the corridor: floor tiles are transparent except the
middle corridor tile `(2, 0)`; all other tiles are walls. -/
def corrLite (t : Nat) : Bool :=
  decide ((corrToff t).Y = 0) &&
    (decide ((corrToff t).X = 0) || decide ((corrToff t).X = 1) ||
     decide ((corrToff t).X = 3) || decide ((corrToff t).X = 4))

/-- The corridor tile graph. -/
def corrG : TileGraph :=
  ⟨fun t d => corrCells ((corrToff t).Add d), corrLite, corrToff⟩

/-- A single isolated tile with no adjacency links at all. -/
def gSolo : TileGraph := ⟨fun _ _ => none, fun _ => true, fun _ => ⟨0, 0⟩⟩

/-- The flood part of `FoV` (before `wallfix`), for stating results about
the pre-correction map. -/
def floodOf (G : TileGraph) (origin : Nat) (radius : Int) : FOut :=
  floodAux G (computeTable radius) (floodFuel radius)
    ⟨[(Offset.zero, some origin)], [Offset.zero]⟩

/-- The map carried by a `done` outcome (empty on panic/fuel-out). -/
def fovMapOf : FOut → FovMap
  | FOut.done m => m
  | _ => []

/-! ### Remaining helper lemmas -/

/-- Both seed edges of the octant are present for every radius (they are
added before the ring loop, unconditionally). -/
theorem seed_mem (radius : Int) :
    ((⟨0, 0⟩, ⟨1, 0⟩) : Edge) ∈ octantEdges radius ∧
      ((⟨0, 0⟩, ⟨1, 1⟩) : Edge) ∈ octantEdges radius := by
  unfold octantEdges
  exact ⟨List.mem_cons_self _ _, List.mem_cons_of_mem _ (List.mem_cons_self _ _)⟩

/-- Every offset of Chebyshev norm 1 is a table destination of the origin,
at every radius (the eight symmetric images of the two seed edges). -/
theorem ring1_edge {radius : Int} {d : Offset} (h : d.Chebyshev = 1) :
    (Offset.zero, d) ∈ computeTable radius := by
  obtain ⟨hseed1, hseed2⟩ := seed_mem radius
  rw [mem_table]
  cases d with
  | mk x y =>
    rw [cheb_natAbs] at h
    dsimp only at h
    have hx1 : (x.natAbs : Int) ≤ 1 := h ▸ le_max_left _ _
    have hy1 : (y.natAbs : Int) ≤ 1 := h ▸ le_max_right _ _
    have hor : (x.natAbs : Int) = 1 ∨ (y.natAbs : Int) = 1 := by
      rcases max_choice ((x.natAbs : Int)) ((y.natAbs : Int)) with hm | hm
      · exact Or.inl (hm.symm.trans h)
      · exact Or.inr (hm.symm.trans h)
    have hcases : (x = 1 ∧ y = 0) ∨ (x = 0 ∧ y = 1) ∨ (x = -1 ∧ y = 0) ∨
        (x = 0 ∧ y = -1) ∨ (x = 1 ∧ y = 1) ∨ (x = -1 ∧ y = 1) ∨
        (x = 1 ∧ y = -1) ∨ (x = -1 ∧ y = -1) := by omega
    rcases hcases with ⟨hx, hy⟩ | ⟨hx, hy⟩ | ⟨hx, hy⟩ | ⟨hx, hy⟩ |
        ⟨hx, hy⟩ | ⟨hx, hy⟩ | ⟨hx, hy⟩ | ⟨hx, hy⟩ <;> subst hx <;> subst hy
    · exact ⟨⟨false, false, false⟩, (⟨0, 0⟩, ⟨1, 0⟩), hseed1, by decide⟩
    · exact ⟨⟨true, false, false⟩, (⟨0, 0⟩, ⟨1, 0⟩), hseed1, by decide⟩
    · exact ⟨⟨false, true, false⟩, (⟨0, 0⟩, ⟨1, 0⟩), hseed1, by decide⟩
    · exact ⟨⟨true, false, true⟩, (⟨0, 0⟩, ⟨1, 0⟩), hseed1, by decide⟩
    · exact ⟨⟨false, false, false⟩, (⟨0, 0⟩, ⟨1, 1⟩), hseed2, by decide⟩
    · exact ⟨⟨false, true, false⟩, (⟨0, 0⟩, ⟨1, 1⟩), hseed2, by decide⟩
    · exact ⟨⟨false, false, true⟩, (⟨0, 0⟩, ⟨1, 1⟩), hseed2, by decide⟩
    · exact ⟨⟨false, true, true⟩, (⟨0, 0⟩, ⟨1, 1⟩), hseed2, by decide⟩

/-- For a non-positive radius every `wallfix` march gets zero fuel, so the
corrector is the identity. -/
theorem wallfix_id {G : TileGraph} {fov : FovMap} {radius : Int}
    (hr : radius ≤ 0) : wallfix G fov radius = some fov := by
  have h0 : radius.toNat = 0 := Int.toNat_of_nonpos hr
  unfold wallfix
  rw [h0]
  rfl

/-! ### Claim C2 -/

/-- C2: refuted (code bug).  The claim says `FoV` completes without a
panic for every graph, origin and positive radius, absorbing missing
adjacency gracefully.  On a single isolated tile with no adjacency links
the flood records the nil neighbor and then dereferences it at
`neighbor.Lite` (source line 41), so `FoV` panics at radius 1. -/
theorem C2_fov_nil_panic : FoV gSolo 0 1 = FOut.panicked := by decide

/-! ### Claim C3 (counterexample and witness) -/

/-- C3 counterexample: on the single isolated tile, `LoS(0, 0)` is true
and the goal offset has Chebyshev norm at most 1, yet `FoV(0, 1)` panics
and so returns no mapping at all — the claim as stated (for all graphs)
fails. -/
theorem C3_counterexample :
    LoS gSolo 0 0 = LosOut.res true ∧
    ((gSolo.toff 0).Sub (gSolo.toff 0)).Chebyshev ≤ 1 ∧
    FoV gSolo 0 1 = FOut.panicked :=
  ⟨by decide, by decide, by decide⟩

theorem C3_witness :
    lookupKV (fovMapOf (FoV g3World.graph 4 1))
      ((g3World.graph.toff 5).Sub (g3World.graph.toff 4)) = some (some 5) := by
  have hd : FoV g3World.graph 4 1 = FOut.done (fovMapOf (FoV g3World.graph 4 1)) := by
    decide
  exact C3_los_fov g3World 4 5 1 (fovMapOf (FoV g3World.graph 4 1))
    (by decide) (by decide) (by decide) (by decide) hd

/-! ### Claim C6 -/

/-- C6 counterexample: at radius 0 — which the claim allows, requiring
every key to satisfy Chebyshev norm ≤ 0 — `FoV` on the 3-by-3 grid
completes and its result contains the key `(1, 0)` of Chebyshev norm 1,
because the two seed edges (and hence the whole unit ring) are added to
the table before the radius-guarded ring loop. -/
theorem C6_counterexample :
    FoV g3 4 0 = FOut.done (fovMapOf (FoV g3 4 0)) ∧
    containsKey (fovMapOf (FoV g3 4 0)) ⟨1, 0⟩ = true ∧
    ¬ ((⟨1, 0⟩ : Offset).Chebyshev ≤ 0) :=
  ⟨by decide, by decide, by decide⟩

/-- C6 (amended): whenever `FoV` completes, the returned mapping sends
the key `(0,0)` to the origin tile (this half holds for every radius);
and for radius ≥ 1 every key present has Chebyshev norm at most the
radius.  (The key bound fails at radius 0 — see the counterexample —
because the seed ring is built unconditionally.) -/
theorem C6_fov_keys {G : TileGraph} {origin : Nat} {radius : Int}
    {m' : FovMap} (h : FoV G origin radius = FOut.done m') :
    lookupKV m' Offset.zero = some (some origin) ∧
    (1 ≤ radius → ∀ k, containsKey m' k = true → k.Chebyshev ≤ radius) := by
  obtain ⟨m, hfl, hwf⟩ := FoV_done_elim h
  obtain ⟨f1, _⟩ := flood_done_main hfl
  obtain ⟨w1, w2, w3⟩ := wallfix_spec hwf
  refine ⟨w3 _ f1.zeroMem, ?_⟩
  intro hr k hk
  have hmax : max radius 1 = radius := max_eq_left hr
  rcases w2 k hk with hk2 | ⟨_, hb⟩
  · unfold containsKey at hk2
    cases hv : lookupKV m k with
    | none =>
      rw [hv] at hk2
      exact Bool.noConfusion hk2
    | some v =>
      rcases f1.par k v hv with hz | ⟨p, tp, hpe, _, _⟩
      · rw [hz]
        have h0 : Offset.zero.Chebyshev = 0 := by decide
        omega
      · obtain ⟨hc1, hc2, hc3⟩ := table_cheb hpe
        have hc1' : k.Chebyshev = p.Chebyshev + 1 := hc1
        have hc2' : 0 ≤ p.Chebyshev := hc2
        have hc3' : p.Chebyshev = 0 ∨ p.Chebyshev ≤ radius - 1 := hc3
        omega
  · omega

theorem C6_witness :
    lookupKV (fovMapOf (FoV g3 4 1)) Offset.zero = some (some 4) ∧
    (⟨1, 0⟩ : Offset).Chebyshev ≤ 1 := by
  have hd : FoV g3 4 1 = FOut.done (fovMapOf (FoV g3 4 1)) := by decide
  have h := C6_fov_keys hd
  exact ⟨h.1, h.2 (by norm_num) ⟨1, 0⟩ (by decide)⟩

/-! ### Claim C9 -/

/-- C9 counterexample: at radius 0 on the 3-by-3 grid, `FoV` completes
with strictly more than the single origin entry — the key `(1, 0)` is
present too — because the seed edges feed the whole unit ring into the
flood regardless of the radius. -/
theorem C9_counterexample :
    FoV g3 4 0 = FOut.done (fovMapOf (FoV g3 4 0)) ∧
    containsKey (fovMapOf (FoV g3 4 0)) ⟨1, 0⟩ = true ∧
    (⟨1, 0⟩ : Offset) ≠ Offset.zero :=
  ⟨by decide, by decide, by decide⟩

/-- C9 (amended): for radius ≤ 0, a completed `FoV` maps `(0,0)` to the
origin tile, every key present is the origin or lies on the unit ring,
and every unit-ring offset is present, bound to the origin tile's
neighbor in that direction.  (The claim's "at most a single entry" fails
— see the counterexample — since the unit ring is seeded
unconditionally.) -/
theorem C9_small_radius {G : TileGraph} {origin : Nat} {radius : Int}
    {m' : FovMap} (hr : radius ≤ 0)
    (h : FoV G origin radius = FOut.done m') :
    lookupKV m' Offset.zero = some (some origin) ∧
    (∀ k, containsKey m' k = true → k = Offset.zero ∨ k.Chebyshev = 1) ∧
    (∀ d, d.Chebyshev = 1 →
      lookupKV m' d = some (G.adj origin (d.Sub Offset.zero))) := by
  obtain ⟨m, hfl, hwf⟩ := FoV_done_elim h
  rw [wallfix_id hr] at hwf
  have hm : m = m' := by injection hwf
  subst hm
  obtain ⟨f1, fpos⟩ := flood_done_main hfl
  refine ⟨f1.zeroMem, ?_, ?_⟩
  · intro k hk
    unfold containsKey at hk
    cases hv : lookupKV m k with
    | none =>
      rw [hv] at hk
      exact Bool.noConfusion hk
    | some v =>
      rcases f1.par k v hv with hz | ⟨p, tp, hpe, _, _⟩
      · exact Or.inl hz
      · obtain ⟨hc1, hc2, hc3⟩ := table_cheb hpe
        have hc1' : k.Chebyshev = p.Chebyshev + 1 := hc1
        have hc2' : 0 ≤ p.Chebyshev := hc2
        have hc3' : p.Chebyshev = 0 ∨ p.Chebyshev ≤ radius - 1 := hc3
        exact Or.inr (by omega)
  · intro d hd
    exact fpos d _ (Sv.step Sv.zero (Or.inl rfl) (ring1_edge hd))

theorem C9_witness :
    lookupKV (fovMapOf (FoV g3 4 0)) Offset.zero = some (some 4) ∧
    lookupKV (fovMapOf (FoV g3 4 0)) ⟨1, 0⟩ =
      some (g3.adj 4 ((⟨1, 0⟩ : Offset).Sub Offset.zero)) := by
  have hd : FoV g3 4 0 = FOut.done (fovMapOf (FoV g3 4 0)) := by decide
  have h := C9_small_radius (by norm_num) hd
  exact ⟨h.1, h.2.2 ⟨1, 0⟩ (by decide)⟩

/-! ### Claim C10 -/

/-- C10: the origin tile's transparency flag is never consulted.  If
`FoV(origin, radius)` completes with an *opaque* origin (radius ≥ 1 as
the claim states, though the hypothesis is not needed), every table
successor of the origin offset `(0,0)` is a key of the result: the flood
pops the seeded origin and records all its table destinations before any
transparency test is applied, and transparency only gates the pushes of
newly recorded neighbors. -/
theorem C10_origin_transparency {G : TileGraph} {origin : Nat}
    {radius : Int} {m' : FovMap} (hr : 1 ≤ radius)
    (hop : G.lite origin = false)
    (h : FoV G origin radius = FOut.done m') :
    ∀ d, (Offset.zero, d) ∈ computeTable radius →
      containsKey m' d = true := by
  intro d hd
  obtain ⟨m, hfl, hwf⟩ := FoV_done_elim h
  obtain ⟨f1, fpos⟩ := flood_done_main hfl
  obtain ⟨w1, _, _⟩ := wallfix_spec hwf
  have hsv := fpos d _ (Sv.step Sv.zero (Or.inl rfl) hd)
  refine w1 d ?_
  unfold containsKey
  rw [hsv]
  rfl

theorem C10_witness : containsKey (fovMapOf (FoV g3o 4 1)) ⟨1, 0⟩ = true := by
  have hd : FoV g3o 4 1 = FOut.done (fovMapOf (FoV g3o 4 1)) := by decide
  exact C10_origin_transparency (by norm_num) (by decide) hd ⟨1, 0⟩ (by decide)

/-! ### Claim C1 -/

/-- C1: blocking behaviour of the flood.  For every graph, origin and
radius: (i) every chain-resolved tile — in particular every opaque tile
first reached along a table path through transparent tiles — is recorded
in the flood result with its chain value; (ii) every recorded offset is
the origin or has a recorded table predecessor that is the origin or a
transparent tile, so nothing strictly beyond an opaque tile along its
(unique) table path is recorded by the flood; (iii) the `wallfix` pass
only adds diagonal patch keys beside the four axes.  Concretely, in the
5-tile corridor with the middle tile `(2,0)` opaque, `FoV` from the end
`(0,0)` at radius 10 still records the opaque tile yet contains no key
on the ray strictly beyond it. -/
theorem C1_fov_blocking :
    (∀ (G : TileGraph) (origin : Nat) (radius : Int) (m m' : FovMap),
      floodAux G (computeTable radius) (floodFuel radius)
        ⟨[(Offset.zero, some origin)], [Offset.zero]⟩ = FOut.done m →
      wallfix G m radius = some m' →
      ((∀ o v, Sv G origin radius o v → lookupKV m o = some v) ∧
       (∀ o v, lookupKV m o = some v → o = Offset.zero ∨
         ∃ p tp, (p, o) ∈ computeTable radius ∧
           lookupKV m p = some (some tp) ∧
           (p = Offset.zero ∨ G.lite tp = true)) ∧
       (∀ k, containsKey m' k = true → containsKey m k = true ∨
         ((k.Y = 1 ∨ k.Y = -1 ∨ k.X = 1 ∨ k.X = -1) ∧
           k.Chebyshev ≤ max radius 1)))) ∧
    (FoV corrG 8 10 = FOut.done (fovMapOf (FoV corrG 8 10)) ∧
     lookupKV (fovMapOf (FoV corrG 8 10)) ⟨2, 0⟩ = some (some 10) ∧
     ((fovMapOf (FoV corrG 8 10)).all fun kv =>
       decide (¬ (kv.1.Y = 0 ∧ 3 ≤ kv.1.X))) = true) := by
  constructor
  · intro G origin radius m m' hfl hwf
    obtain ⟨f1, fpos⟩ := flood_done_main hfl
    exact ⟨fpos, f1.par, (wallfix_spec hwf).2.1⟩
  · exact ⟨by decide, by decide, by decide⟩

theorem C1_witness :
    lookupKV (fovMapOf (floodOf g3 4 1)) Offset.zero = some (some 4) := by
  have hfl : floodAux g3 (computeTable 1) (floodFuel 1)
      ⟨[(Offset.zero, some 4)], [Offset.zero]⟩ =
      FOut.done (fovMapOf (floodOf g3 4 1)) := by decide
  have hwf : wallfix g3 (fovMapOf (floodOf g3 4 1)) 1 =
      some (fovMapOf (FoV g3 4 1)) := by decide
  exact (C1_fov_blocking.1 g3 4 1 (fovMapOf (floodOf g3 4 1))
    (fovMapOf (FoV g3 4 1)) hfl hwf).1 Offset.zero (some 4) Sv.zero
